import Mathlib

/-!
Shallow embedding of the deterministic segmentation pipeline of the
`from-pdf-to-data` repository (src/src/image_stitcher.py,
src/src/question_detector.py, src/src/metadata_extractor.py,
src/src/output_manager.py, src/src/main.py).

Modelling conventions:
* Raster images are grayscale intensity matrices: a list of rows, each row a
  list of pixel intensities (0..255).  All pixel operations the claims touch
  (whitespace-gap detection, trimming) only inspect grayscale intensities, so
  the RGB→gray conversion performed by the source is absorbed into the
  representation; the white canvas background used by `stitch_vertically` is
  intensity 255.
* Python floats (`gap_ratio`, the white-pixel ratio) are modelled as exact
  rationals.
* External collaborators (PDF rasterization, the tesseract OCR engine) are
  parameters: rasterization results are passed in as page images, and OCR is
  an oracle returning the text of the constrained attempt and of the
  unconstrained retry (`none` models an engine-level exception).
* Fallible code (`raise`) is modelled with `Except String`, unhandled index
  errors with `Option`.
-/

namespace PdfToData

/-- A grayscale raster image: rows of pixel intensities. -/
abbrev Img := List (List Nat)

/-- Number of pixel rows of an image (PIL `height`). -/
def imgHeight (img : Img) : Nat := img.length

/-- Width of an image, read off its first row (PIL `width`; the images built
by the pipeline are rectangular). -/
def imgWidth (img : Img) : Nat := (img.headD []).length

/-- `img` is rectangular: every row has the image's width. -/
def Rectangular (img : Img) : Prop := ∀ row ∈ img, row.length = imgWidth img

/-- Pixel intensity at column `x`, row `y`; out-of-range reads default to
white (255), mirroring that the source never reads out of range. -/
def pixel (img : Img) (x y : Nat) : Nat := (img.getD y []).getD x 255

/-! ## image_stitcher.py -/

/-- `split_columns` (image_stitcher.py:9): split a page into left/right
column images.  `int(width * gap_ratio)` truncates the nonnegative float
product, i.e. takes the floor. -/
def split_columns (img : Img) (gap_ratio : ℚ) : Img × Img :=
  let width := imgWidth img
  let gap_pixels := (⌊(width : ℚ) * gap_ratio⌋).toNat
  let mid := width / 2
  (img.map (fun row => row.take (mid - gap_pixels / 2)),
   img.map (fun row => row.drop (mid + gap_pixels / 2)))

/-- Center one row on a canvas of width `w`, white background
(image_stitcher.py:57-64: `x_offset = (max_width - img.width) // 2`). -/
def padCenter (w : Nat) (row : List Nat) : List Nat :=
  let off := (w - row.length) / 2
  List.replicate off 255 ++ row ++ List.replicate (w - row.length - off) 255

/-- `stitch_vertically` (image_stitcher.py:36): vertical concatenation on a
white canvas of the maximal width; raises `ValueError` on an empty list;
returns a copy of the single image when given exactly one. -/
def stitch_vertically (imgs : List Img) : Except String Img :=
  if imgs = [] then .error "이미지 리스트가 비어있습니다."
  else if imgs.length = 1 then .ok (imgs.headD [])
  else
    let max_width := (imgs.map imgWidth).foldl max 0
    .ok ((imgs.map (fun im => im.map (padCenter max_width))).flatten)

/-- `process_pages_to_single_image` (image_stitcher.py:70): split every page
into its two columns (page ascending, left before right) and stitch. -/
def process_pages_to_single_image (pages : List Img) (gap_ratio : ℚ) :
    Except String Img :=
  stitch_vertically
    ((pages.map (fun p =>
      [(split_columns p gap_ratio).1, (split_columns p gap_ratio).2])).flatten)

/-- Which of the two page columns a composite segment came from. -/
inductive Column
  | left
  | right
deriving DecidableEq

/-- One entry of the `column_starts` list built inside
`calculate_original_position` (image_stitcher.py:139-159): the half-open
composite interval `[start, stop)` of one column, with its 1-based page. -/
structure ColInfo where
  start : Nat
  stop : Nat
  page : Nat
  column : Column
deriving DecidableEq

/-- `page_heights[page_idx] if page_idx < len(page_heights) else
page_heights[-1]` (image_stitcher.py:143); `none` models the `IndexError`
raised by `[-1]` on an empty list. -/
def colHeight (page_heights : List Nat) (idx : Nat) : Option Nat :=
  match page_heights.get? idx with
  | some h => some h
  | none => page_heights.getLast?

/-- The loop of image_stitcher.py:142-159 building the segment descriptors,
generalized over the number of remaining pages, the current page index and
the running offset. -/
def buildColumnStarts (page_heights : List Nat) :
    Nat → Nat → Nat → Option (List ColInfo)
  | 0, _, _ => some []
  | n + 1, idx, cur =>
    match colHeight page_heights idx with
    | none => none
    | some h =>
      match buildColumnStarts page_heights n (idx + 1) (cur + h + h) with
      | none => none
      | some rest =>
        some (⟨cur, cur + h, idx + 1, .left⟩ ::
              ⟨cur + h, cur + h + h, idx + 1, .right⟩ :: rest)

/-- The full `column_starts` list of `calculate_original_position`. -/
def column_starts (page_heights : List Nat) (num_pages : Nat) :
    Option (List ColInfo) :=
  buildColumnStarts page_heights num_pages 0 0

/-- Result record of `calculate_original_position`. -/
structure OrigPos where
  page : Nat
  column : Column
  y_in_column : Nat
deriving DecidableEq

/-- `calculate_original_position` (image_stitcher.py:121): find the first
segment whose `[start, stop)` contains `y`; otherwise fall back to the last
segment (`column_starts[-1]`, an `IndexError` — `none` — when empty). -/
def calculate_original_position (y : Nat) (page_heights : List Nat)
    (num_pages : Nat) : Option OrigPos :=
  match column_starts page_heights num_pages with
  | none => none
  | some cols =>
    match cols.find? (fun c => c.start ≤ y && y < c.stop) with
    | some c => some ⟨c.page, c.column, y - c.start⟩
    | none =>
      match cols.getLast? with
      | some last => some ⟨last.page, last.column, y - last.start⟩
      | none => none

/-! ## question_detector.py -/

/-- `BoundingBox` (question_detector.py:11). -/
structure BoundingBox where
  x : Nat
  y : Nat
  width : Nat
  height : Nat
deriving DecidableEq

/-- One row's white-pixel test (question_detector.py:79-85):
`np.sum(row >= whitespace_threshold) / width >= min_white_ratio`. -/
def is_gap_row (row : List Nat) (whitespace_threshold : Nat)
    (min_white_ratio : ℚ) : Bool :=
  decide (min_white_ratio ≤
    ((row.countP (fun v => whitespace_threshold ≤ v) : ℚ) / (row.length : ℚ)))

/-- The run-length-encoding loop of question_detector.py:87-101, generalized
over the remaining flags, the current row index `y` and the pending
`gap_start` state; the trailing run is closed at the image bottom. -/
def gap_rle (min_gap_height : Nat) :
    List Bool → Nat → Option Nat → List (Nat × Nat)
  | [], y, some s => if min_gap_height ≤ y - s then [(s, y)] else []
  | [], _, none => []
  | true :: rest, y, none => gap_rle min_gap_height rest (y + 1) (some y)
  | true :: rest, y, some s => gap_rle min_gap_height rest (y + 1) (some s)
  | false :: rest, y, none => gap_rle min_gap_height rest (y + 1) none
  | false :: rest, y, some s =>
    (if min_gap_height ≤ y - s then [(s, y)] else []) ++
      gap_rle min_gap_height rest (y + 1) none

/-- `detect_horizontal_gaps` (question_detector.py:53). -/
def detect_horizontal_gaps (img : Img) (min_gap_height : Nat)
    (whitespace_threshold : Nat) (min_white_ratio : ℚ) : List (Nat × Nat) :=
  gap_rle min_gap_height
    (img.map (fun row => is_gap_row row whitespace_threshold min_white_ratio))
    0 none

/-- The loop of question_detector.py:143-153 over consecutive gap pairs. -/
def middle_boundaries (width min_gap_height : Nat) :
    List (Nat × Nat) → List BoundingBox
  | (_, e) :: g2 :: rest =>
    (if min_gap_height < g2.1 - e then [⟨0, e, width, g2.1 - e⟩] else []) ++
      middle_boundaries width min_gap_height (g2 :: rest)
  | _ => []

/-- The gap-complement logic of `find_question_boundaries`
(question_detector.py:131-163) as a function of the detected gaps. -/
def boundaries_from_gaps (width height min_gap_height : Nat)
    (gaps : List (Nat × Nat)) : List BoundingBox :=
  match gaps with
  | [] => [⟨0, 0, width, height⟩]
  | g :: gs =>
    (if min_gap_height < g.1 then [⟨0, 0, width, g.1⟩] else []) ++
      middle_boundaries width min_gap_height (g :: gs) ++
      (let lastEnd := ((g :: gs).getLastD (0, 0)).2
       if min_gap_height < height - lastEnd then
         [⟨0, lastEnd, width, height - lastEnd⟩]
       else [])

/-- `find_question_boundaries` (question_detector.py:106); the
`min_white_ratio` default 0.95 of `detect_horizontal_gaps` is used. -/
def find_question_boundaries (img : Img) (min_gap_height : Nat)
    (whitespace_threshold : Nat) : List BoundingBox :=
  boundaries_from_gaps (imgWidth img) (imgHeight img) min_gap_height
    (detect_horizontal_gaps img min_gap_height whitespace_threshold (95 / 100))

/-- PIL `crop((x, y, x + w, y + h))` for an in-bounds box. -/
def crop_box (img : Img) (b : BoundingBox) : Img :=
  ((img.drop b.y).take b.height).map (fun row => (row.drop b.x).take b.width)

/-- `np.any(content_mask, axis=1)` at row `y`: the row has a pixel strictly
below the threshold. -/
def row_has_content (img : Img) (threshold : Nat) (y : Nat) : Bool :=
  (img.getD y []).any (fun v => v < threshold)

/-- `np.any(content_mask, axis=0)` at column `x`. -/
def col_has_content (img : Img) (threshold : Nat) (x : Nat) : Bool :=
  img.any (fun row => row.getD x 255 < threshold)

/-- `trim_whitespace` (question_detector.py:194): tight bounding box of the
pixels strictly below `threshold` (`np.where(rows)[0][[0, -1]]` is the first
and last index of a content row), expanded by `padding`, clamped to the
image, then cropped; the image is returned unchanged when no content
exists. -/
def trim_whitespace (img : Img) (threshold : Nat) (padding : Nat) : Img :=
  let height := img.length
  let width := imgWidth img
  let ys := (List.range height).filter (row_has_content img threshold)
  let xs := (List.range width).filter (col_has_content img threshold)
  if ys.isEmpty || xs.isEmpty then img
  else
    let y_min := ys.headD 0 - padding
    let y_max := min height (ys.getLastD 0 + padding + 1)
    let x_min := xs.headD 0 - padding
    let x_max := min width (xs.getLastD 0 + padding + 1)
    crop_box img ⟨x_min, y_min, x_max - x_min, y_max - y_min⟩

/-- `detect_questions` (question_detector.py:234): boundaries, minimum-height
filter, crop, optional trim, post-trim minimum-height filter. -/
def detect_questions (img : Img) (min_gap_height : Nat)
    (whitespace_threshold : Nat) (trim_enabled : Bool)
    (min_question_height : Nat) : List (Img × BoundingBox) :=
  (find_question_boundaries img min_gap_height whitespace_threshold).filterMap
    (fun bbox =>
      if bbox.height < min_question_height then none
      else
        let region := crop_box img bbox
        let region :=
          if trim_enabled then trim_whitespace region whitespace_threshold 10
          else region
        if min_question_height ≤ region.length then some (region, bbox)
        else none)

/-! ## metadata_extractor.py -/

/-- `text.strip()`: drop leading and trailing whitespace
(metadata_extractor.py:87). -/
def strip_text (s : List Char) : List Char :=
  ((s.dropWhile Char.isWhitespace).reverse.dropWhile Char.isWhitespace).reverse

/-- `int(...)` on a run of decimal digit characters. -/
def parse_digits (ds : List Char) : Nat :=
  ds.foldl (fun acc c => acc * 10 + (c.toNat - 48)) 0

/-- `re.search(r'(\d\x7b1,3\x7d)', text)` (metadata_extractor.py:90): the
regex engine finds the leftmost position where one-to-three digits match and
matches greedily there, i.e. it returns the first up-to-three digits of the
first contiguous digit run; `none` when the text has no digit. -/
def search_digits_1_3 : List Char → Option (List Char)
  | [] => none
  | c :: rest =>
    if c.isDigit then some (((c :: rest).takeWhile Char.isDigit).take 3)
    else search_digits_1_3 rest

/-- The validation step of `extract_question_number_from_top_left`
(metadata_extractor.py:86-100) applied to the text returned by the OCR
engine: strip, search for the first one-to-three-digit match, parse, and
accept only numbers in `[1, 999]`.  (`int` never fails on a digit run, so
the `except ValueError` branch is dead.) -/
def parse_question_number (text : List Char) : Option Nat :=
  match search_digits_1_3 (strip_text text) with
  | none => none
  | some ds =>
    let num := parse_digits ds
    if 1 ≤ num ∧ num ≤ 999 then some num else none

/-- Outcome of the two OCR attempts of metadata_extractor.py:74-84 on a
region's masked top-left crop: the digit-constrained pass and the
unconstrained retry; `none` models an engine-level exception. -/
structure OcrOutcome where
  constrained : Option (List Char)
  fallback : Option (List Char)

/-- `extract_question_number_from_top_left` (metadata_extractor.py:44):
run the constrained OCR, on an engine failure retry unconstrained, then
validate the recognized text; both engines failing yields `None`. -/
def extract_question_number_from_top_left (ocr : OcrOutcome) : Option Nat :=
  match ocr.constrained with
  | some text => parse_question_number text
  | none =>
    match ocr.fallback with
    | some text => parse_question_number text
    | none => none

/-! ## output_manager.py and main.py -/

/-- The configuration fields consumed by the pipeline (`load_config`
defaults, main.py:17-40; `min_question_height` defaults to 100 via
`config['detection'].get('min_question_height', 100)`). -/
structure Config where
  gap_ratio : ℚ
  min_gap_height : Nat
  whitespace_threshold : Nat
  min_question_height : Nat
  image_format : String

/-- The documented default configuration. -/
def default_config : Config := ⟨5 / 100, 30, 250, 100, "png"⟩

/-- One entry of the manifest's `questions` list
(`create_question_record`, output_manager.py:84). -/
structure QuestionRecord where
  id : String
  number : Option Nat
  theme : Option String
  image_path : String
  source_pages : List Nat
  column : Column
  bbox : BoundingBox
deriving DecidableEq

/-- `f"q\x7bidx:03d\x7d"`: zero-pad a counter to three digits
(output_manager.py:168). -/
def pad3 (n : Nat) : String :=
  if n < 10 then "00" ++ toString n
  else if n < 100 then "0" ++ toString n
  else toString n

/-- The manifest written by `save_metadata` (output_manager.py:47-81);
`processed_at` records `datetime.now().isoformat()`. -/
structure Manifest where
  source_pdf : String
  processed_at : String
  total_questions : Nat
  questions : List QuestionRecord
deriving DecidableEq

/-- What a run of `process_single_pdf` produces: the manifest, the saved
image files (relative paths, one per `OutputManager.add_question` call) and
the number of regions discarded for lack of a valid number. -/
structure RunOutput where
  manifest : Manifest
  saved_images : List String
  skipped : Nat
deriving DecidableEq

/-- The per-region loop of `process_single_pdf` (main.py:113-141): extract a
number from each detected region; discard (count) the region when there is
none; otherwise back-map `bbox.y`, save the image and append a record whose
id is the 1-based running counter (`OutputManager.add_question`,
output_manager.py:143-194).  An `IndexError` escaping
`calculate_original_position` aborts the run. -/
def process_regions (ocr : Img → OcrOutcome) (page_heights : List Nat)
    (num_pages : Nat) (image_format : String) :
    List (Img × BoundingBox) → List QuestionRecord → List String → Nat →
    Except String (List QuestionRecord × List String × Nat)
  | [], records, saved, skipped => .ok (records, saved, skipped)
  | (region, bbox) :: rest, records, saved, skipped =>
    match extract_question_number_from_top_left (ocr region) with
    | none =>
      process_regions ocr page_heights num_pages image_format rest
        records saved (skipped + 1)
    | some n =>
      match calculate_original_position bbox.y page_heights num_pages with
      | none => .error "IndexError"
      | some pos =>
        let qid := "q" ++ pad3 (records.length + 1)
        let path := "images/" ++ qid ++ "." ++ image_format
        process_regions ocr page_heights num_pages image_format rest
          (records ++ [⟨qid, some n, none, path, [pos.page], pos.column, bbox⟩])
          (saved ++ [path]) skipped

/-- `process_single_pdf` (main.py:43-150): rasterized pages in, stitched
composite, detection (trimming enabled), the per-region loop, then exactly
one manifest via `OutputManager.save_all`/`save_metadata`; `now` is the
`datetime.now().isoformat()` timestamp of the run. -/
def process_single_pdf (pages : List Img) (cfg : Config)
    (ocr : Img → OcrOutcome) (now : String) (pdf_name : String) :
    Except String RunOutput := do
  let stitched ← process_pages_to_single_image pages cfg.gap_ratio
  let page_heights := pages.map imgHeight
  let detected := detect_questions stitched cfg.min_gap_height
    cfg.whitespace_threshold true cfg.min_question_height
  let (records, saved, skipped) ← process_regions ocr page_heights
    pages.length cfg.image_format detected [] [] 0
  .ok ⟨⟨pdf_name, now, records.length, records⟩, saved, skipped⟩

/-- One line of the batch summary (main.py:186-198). -/
structure BatchRecord where
  file : String
  status : String
  error : Option String
deriving DecidableEq

/-- `process_batch` (main.py:153-200): every per-file exception is caught
and recorded as a `status: "error"` entry; the batch always continues and
returns. -/
def process_batch (files : List (String × List Img)) (cfg : Config)
    (ocr : Img → OcrOutcome) (now : String) : List BatchRecord :=
  files.map (fun f =>
    match process_single_pdf f.2 cfg ocr now f.1 with
    | .ok _ => ⟨f.1, "success", none⟩
    | .error e => ⟨f.1, "error", some e⟩)

/-- How a `main()` invocation terminates: an explicit `sys.exit(1)`, a
normal return, or an exception propagating out of `main()` (single-file
mode has no try/except). -/
inductive MainOutcome
  | exitOne
  | completed
  | uncaught (msg : String)
deriving DecidableEq

/-- The control flow of `main()` (main.py:203-265): exit 1 when the input
path does not exist; batch branch when `--batch` is passed or the input is a
directory, exiting 1 when that input is not a directory; otherwise the
single-file pipeline, whose exceptions are not caught. -/
def main_outcome (input_exists input_is_dir batch_flag : Bool)
    (batch_files : List (String × List Img)) (single_pages : List Img)
    (cfg : Config) (ocr : Img → OcrOutcome) (now : String)
    (single_name : String) : MainOutcome :=
  if input_exists = false then .exitOne
  else if batch_flag || input_is_dir then
    if input_is_dir = false then .exitOne
    else
      let _ := process_batch batch_files cfg ocr now
      .completed
  else
    match process_single_pdf single_pages cfg ocr now single_name with
    | .ok _ => .completed
    | .error e => .uncaught e

/-- The shared no-text OCR oracle (both engine attempts fail). -/
def ocr_none : Img → OcrOutcome := fun _ => ⟨none, none⟩

/-- The shared OCR oracle whose constrained pass always reads "12". -/
def ocr_12 : Img → OcrOutcome := fun _ => ⟨some ['1', '2'], none⟩

/-! ## Spec-side definitions used to state the claims -/

/-- Modelled from the spec's words (BoundaryResolver): the complement spans
of a non-empty ascending gap list over `[0, height)` — the leading span
before the first gap, the spans between consecutive gaps, and the trailing
span after the last gap. -/
def complement_spans (height : Nat) (gaps : List (Nat × Nat)) :
    List (Nat × Nat) :=
  match gaps with
  | [] => []
  | g :: gs =>
    (0, g.1) :: ((g :: gs).zip gs).map (fun p => (p.1.2, p.2.1)) ++
      [(((g :: gs).getLastD (0, 0)).2, height)]

/-- A complement span of height strictly greater than `min_gap_height`
becomes a full-width candidate region. -/
def span_to_box (width min_gap_height : Nat) (s : Nat × Nat) :
    Option BoundingBox :=
  if min_gap_height < s.2 - s.1 then some ⟨0, s.1, width, s.2 - s.1⟩ else none

/-- Gap-row flag of row `i`, out-of-range rows flagged `false`. -/
def flagAt (flags : List Bool) (i : Nat) : Bool := flags.getD i false

/-- `[s, e)` is a maximal run of gap rows: non-empty, within the image, all
rows flagged, and not extendable on either side. -/
def IsMaxRun (flags : List Bool) (s e : Nat) : Prop :=
  s < e ∧ e ≤ flags.length ∧
  (∀ i, s ≤ i → i < e → flagAt flags i = true) ∧
  (s = 0 ∨ flagAt flags (s - 1) = false) ∧
  (e = flags.length ∨ flagAt flags e = false)

/-- Loop invariant of the run-length-encoding state of `gap_rle` at row `y`:
with no pending run the previous row (if any) is not a gap row; with a
pending run started at `s`, rows `s..y-1` are gap rows and the run cannot
extend further left. -/
def RleInv (flags : List Bool) (y : Nat) : Option Nat → Prop
  | none => y = 0 ∨ flagAt flags (y - 1) = false
  | some s => s < y ∧ (∀ i, s ≤ i → i < y → flagAt flags i = true) ∧
      (s = 0 ∨ flagAt flags (s - 1) = false)

/-- Smallest start index a run emitted from state `(y, gs)` can have. -/
def rleLower (y : Nat) : Option Nat → Nat
  | none => y
  | some s => s

/-- Segment intervals chain contiguously from `cur` up to `total`. -/
def Contiguous : Nat → List ColInfo → Nat → Prop
  | cur, [], total => cur = total
  | cur, c :: rest, total => c.start = cur ∧ Contiguous c.stop rest total

/-- A manifest with its `processed_at` timestamp blanked out. -/
def erase_timestamp (m : Manifest) : Manifest :=
  ⟨m.source_pdf, "", m.total_questions, m.questions⟩

/-! ## Helper lemmas: characters and digit search -/

theorem ws_not_digit (c : Char) (h : c.isWhitespace = true) :
    c.isDigit = false := by
  simp only [Char.isWhitespace, Bool.or_eq_true, decide_eq_true_eq] at h
  rcases h with ((h | h) | h) | h <;> subst h <;> decide

theorem digit_not_ws (c : Char) (h : c.isDigit = true) :
    c.isWhitespace = false := by
  cases hw : c.isWhitespace with
  | false => rfl
  | true => rw [ws_not_digit c hw] at h; exact absurd h (by simp)

theorem dropWhile_append_keep (p : Char → Bool) (A B : List Char)
    (hB : ∀ c, B.head? = some c → p c = false) :
    (A ++ B).dropWhile p = A.dropWhile p ++ B := by
  induction A with
  | nil =>
    cases B with
    | nil => rfl
    | cons b t =>
      simp only [List.nil_append, List.dropWhile_cons, hB b rfl]
      rfl
  | cons a A ih =>
    simp only [List.cons_append, List.dropWhile_cons]
    cases hpa : p a <;> simp [ih]

theorem dropWhile_eq_drop (p : α → Bool) (L : List α) :
    ∃ k, L.dropWhile p = L.drop k := by
  induction L with
  | nil => exact ⟨0, rfl⟩
  | cons a t ih =>
    obtain ⟨k, hk⟩ := ih
    cases hpa : p a
    · exact ⟨0, by simp [List.dropWhile_cons, hpa]⟩
    · exact ⟨k + 1, by simp [List.dropWhile_cons, hpa, hk]⟩

theorem getLast?_drop_ne_nil (L : List α) (k : Nat) (h : L.drop k ≠ []) :
    (L.drop k).getLast? = L.getLast? := by
  induction L generalizing k with
  | nil => simp at h
  | cons a t ih =>
    cases k with
    | zero => rfl
    | succ k =>
      simp only [List.drop_succ_cons] at h ⊢
      have ht : t ≠ [] := by
        intro he; rw [he] at h; simp at h
      obtain ⟨b, t', rfl⟩ := List.exists_cons_of_ne_nil ht
      rw [ih k h, List.getLast?_cons_cons]

theorem revDrop_head? (p : Char → Bool) (l : List Char) (c : Char)
    (h : ((l.reverse.dropWhile p).reverse).head? = some c) :
    l.head? = some c := by
  rw [List.head?_reverse] at h
  obtain ⟨k, hk⟩ := dropWhile_eq_drop p l.reverse
  rw [hk] at h
  have hne : l.reverse.drop k ≠ [] := by
    intro he; rw [he] at h; simp at h
  rw [getLast?_drop_ne_nil _ _ hne, List.getLast?_reverse] at h
  exact h

theorem mem_strip_text (l : List Char) (c : Char) (h : c ∈ strip_text l) :
    c ∈ l := by
  unfold strip_text at h
  rw [List.mem_reverse] at h
  have h2 := (List.dropWhile_sublist Char.isWhitespace).mem h
  rw [List.mem_reverse] at h2
  exact (List.dropWhile_sublist Char.isWhitespace).mem h2

theorem strip_decomp (pre run post : List Char)
    (hrun : ∀ c ∈ run, c.isDigit = true) (hne : run ≠ []) :
    ∃ pre2 post2,
      strip_text (pre ++ run ++ post) = pre2 ++ run ++ post2 ∧
      (∀ c ∈ pre2, c ∈ pre) ∧
      (∀ c, post2.head? = some c → post.head? = some c) := by
  obtain ⟨d, r, rfl⟩ := List.exists_cons_of_ne_nil hne
  have hhead1 : ∀ c, ((d :: r) ++ post).head? = some c → c.isWhitespace = false := by
    intro c hc
    simp only [List.cons_append, List.head?_cons, Option.some.injEq] at hc
    subst hc
    exact digit_not_ws _ (hrun _ (by simp))
  have step1 : (pre ++ (d :: r) ++ post).dropWhile Char.isWhitespace =
      pre.dropWhile Char.isWhitespace ++ ((d :: r) ++ post) := by
    rw [List.append_assoc]
    exact dropWhile_append_keep _ pre _ hhead1
  refine ⟨pre.dropWhile Char.isWhitespace,
    ((post.reverse.dropWhile Char.isWhitespace).reverse), ?_, ?_, ?_⟩
  · unfold strip_text
    rw [step1]
    have hg : ((d :: r).reverse).head? = (d :: r).getLast? := List.head?_reverse _
    obtain ⟨g, hgl⟩ : ∃ g, (d :: r).getLast? = some g := by
      cases r with
      | nil => exact ⟨d, rfl⟩
      | cons b t => exact ⟨(b :: t).getLast (by simp), by rw [List.getLast?_cons_cons]; exact List.getLast?_eq_getLast _ (by simp)⟩
    have hgmem : g ∈ d :: r := List.mem_of_mem_getLast? hgl
    have hhead2 : ∀ c, ((d :: r).reverse ++ (pre.dropWhile Char.isWhitespace).reverse).head? = some c →
        c.isWhitespace = false := by
      intro c hc
      rw [List.head?_append, hg, hgl] at hc
      simp only [Option.or_some, Option.some.injEq] at hc
      subst hc
      exact digit_not_ws _ (hrun _ hgmem)
    have step2 : (pre.dropWhile Char.isWhitespace ++ ((d :: r) ++ post)).reverse =
        post.reverse ++ ((d :: r).reverse ++ (pre.dropWhile Char.isWhitespace).reverse) := by
      simp [List.reverse_append]
    rw [step2, dropWhile_append_keep _ _ _ hhead2]
    simp [List.reverse_append]
  · intro c hc
    exact (List.dropWhile_sublist Char.isWhitespace).mem hc
  · intro c hc
    exact revDrop_head? _ post c hc

theorem takeWhile_digits (run post : List Char)
    (hrun : ∀ c ∈ run, c.isDigit = true)
    (hpost : ∀ c, post.head? = some c → c.isDigit = false) :
    (run ++ post).takeWhile Char.isDigit = run := by
  induction run with
  | nil =>
    cases post with
    | nil => rfl
    | cons b t =>
      simp only [List.nil_append, List.takeWhile_cons, hpost b rfl]
      rfl
  | cons a r ih =>
    simp only [List.cons_append, List.takeWhile_cons, hrun a (by simp)]
    simp only [if_true]
    rw [ih (fun c hc => hrun c (by simp [hc]))]

theorem search_digits_eq (pre run post : List Char)
    (hpre : ∀ c ∈ pre, c.isDigit = false)
    (hrun : ∀ c ∈ run, c.isDigit = true) (hne : run ≠ [])
    (hpost : ∀ c, post.head? = some c → c.isDigit = false) :
    search_digits_1_3 (pre ++ run ++ post) = some (run.take 3) := by
  induction pre with
  | nil =>
    obtain ⟨d, r, rfl⟩ := List.exists_cons_of_ne_nil hne
    simp only [List.nil_append, List.cons_append, search_digits_1_3,
      hrun d (by simp), if_true]
    rw [show d :: r.append post = (d :: r) ++ post from rfl,
      takeWhile_digits _ _ hrun hpost]
  | cons a pre ih =>
    simp only [List.cons_append, search_digits_1_3, hpre a (by simp)]
    simp only [Bool.false_eq_true, if_false]
    exact ih (fun c hc => hpre c (by simp [hc]))

theorem search_digits_none (l : List Char)
    (h : ∀ c ∈ l, c.isDigit = false) : search_digits_1_3 l = none := by
  induction l with
  | nil => rfl
  | cons a t ih =>
    simp only [search_digits_1_3, h a (by simp), Bool.false_eq_true, if_false]
    exact ih (fun c hc => h c (by simp [hc]))

theorem parse_question_number_eq (pre run post : List Char)
    (hpre : ∀ c ∈ pre, c.isDigit = false)
    (hrun : ∀ c ∈ run, c.isDigit = true) (hne : run ≠ [])
    (hpost : ∀ c, post.head? = some c → c.isDigit = false) :
    parse_question_number (pre ++ run ++ post) =
      (if 1 ≤ parse_digits (run.take 3) ∧ parse_digits (run.take 3) ≤ 999
       then some (parse_digits (run.take 3)) else none) := by
  obtain ⟨pre2, post2, heq, hpre2, hpost2⟩ := strip_decomp pre run post hrun hne
  unfold parse_question_number
  rw [heq, search_digits_eq pre2 run post2
    (fun c hc => hpre c (hpre2 c hc)) hrun hne
    (fun c hc => hpost c (hpost2 c hc))]

/-- C1 counterexample: on OCR text `"1000"` the code returns `some 100`
(the regex matches at most three digits), not `None` as the claim states. -/
theorem c1_counterexample :
    extract_question_number_from_top_left ⟨some "1000".data, none⟩ = some 100 ∧
    extract_question_number_from_top_left ⟨some "1000".data, none⟩ ≠ none := by
  constructor
  · decide
  · decide

/-- C1 (amended): for the text produced by OCR on a region's masked
top-left crop, `extract_question_number_from_top_left` takes the first
up-to-three digits of the first contiguous digit run (the regex matches one
to three digits), parses them as an integer, and returns it only if it lies
in `[1, 999]`; in particular it maps "007" to 7 and accepts "999"; text
parsing to 0 or containing no digits yields `None`, but "1000" yields 100
(the first three digits), not `None`. -/
theorem c1_extract :
    (∀ pre run post : List Char,
        (∀ c ∈ pre, c.isDigit = false) →
        (∀ c ∈ run, c.isDigit = true) → run ≠ [] →
        (∀ c, post.head? = some c → c.isDigit = false) →
        extract_question_number_from_top_left ⟨some (pre ++ run ++ post), none⟩ =
          (if 1 ≤ parse_digits (run.take 3) ∧ parse_digits (run.take 3) ≤ 999
           then some (parse_digits (run.take 3)) else none)) ∧
    (∀ text : List Char, (∀ c ∈ text, c.isDigit = false) →
        extract_question_number_from_top_left ⟨some text, none⟩ = none) ∧
    extract_question_number_from_top_left ⟨some "007".data, none⟩ = some 7 ∧
    extract_question_number_from_top_left ⟨some "999".data, none⟩ = some 999 ∧
    extract_question_number_from_top_left ⟨some "0".data, none⟩ = none ∧
    extract_question_number_from_top_left ⟨some "1000".data, none⟩ = some 100 := by
  refine ⟨?_, ?_, by decide, by decide, by decide, by decide⟩
  · intro pre run post hpre hrun hne hpost
    show parse_question_number (pre ++ run ++ post) = _
    exact parse_question_number_eq pre run post hpre hrun hne hpost
  · intro text htext
    show parse_question_number text = none
    unfold parse_question_number
    rw [search_digits_none _ (fun c hc => htext c (mem_strip_text text c hc))]

/-- C1 witness: the amended characterization applied to the concrete text
"a12b": first digit run "12", accepted as 12. -/
theorem c1_extract_witness :
    extract_question_number_from_top_left
      ⟨some (['a'] ++ ['1', '2'] ++ ['b']), none⟩ = some 12 := by
  have h := c1_extract.1 ['a'] ['1', '2'] ['b']
    (by decide) (by decide) (by decide) (by decide)
  simpa using h

theorem is_gap_row_dark : is_gap_row [0] 250 (95 / 100) = false := by
  have h : (List.countP (fun v => decide (250 ≤ v)) [0]) = 0 := by decide
  simp only [is_gap_row, h]
  norm_num

theorem is_gap_row_white : is_gap_row [255] 250 (95 / 100) = true := by
  have h : (List.countP (fun v => decide (250 ≤ v)) [255]) = 1 := by decide
  simp only [is_gap_row, h]
  norm_num

theorem eval_split : split_columns [[0, 0]] (5 / 100) = ([[0]], [[0]]) := by
  simp only [split_columns, imgWidth, List.headD]
  norm_num

theorem eval_composite :
    process_pages_to_single_image [[[0, 0]]] (5 / 100) = .ok [[0], [0]] := by
  simp only [process_pages_to_single_image, List.map, eval_split, List.flatten]
  rfl

theorem eval_gaps_dark (mg : Nat) :
    detect_horizontal_gaps [[0], [0]] mg 250 (95 / 100) = [] := by
  simp only [detect_horizontal_gaps, List.map, is_gap_row_dark]
  rfl

theorem eval_run_default (t name : String) :
    process_single_pdf [[[0, 0]]] default_config ocr_none t name =
      .ok ⟨⟨name, t, 0, []⟩, [], 0⟩ := by
  unfold process_single_pdf
  rw [show default_config.gap_ratio = 5 / 100 from rfl, eval_composite]
  simp only [bind, Except.bind]
  rw [show default_config.min_gap_height = 30 from rfl,
    show default_config.whitespace_threshold = 250 from rfl,
    show default_config.min_question_height = 100 from rfl]
  rw [show detect_questions [[0], [0]] 30 250 true 100 = [] by
    simp only [detect_questions, find_question_boundaries, eval_gaps_dark]
    rfl]
  rfl

/-- C2 counterexample: the same one-page input, the same configuration and
the same (empty) OCR outcomes, run at two different wall-clock times,
produce different manifests — `processed_at` records `datetime.now()`. -/
theorem c2_counterexample :
    (process_single_pdf [[[0, 0]]] default_config ocr_none
        "2024-01-01T00:00:00" "sample.pdf").toOption.map (fun r => r.manifest) ≠
      (process_single_pdf [[[0, 0]]] default_config ocr_none
        "2024-01-02T00:00:00" "sample.pdf").toOption.map (fun r => r.manifest) := by
  rw [eval_run_default "2024-01-01T00:00:00" "sample.pdf",
    eval_run_default "2024-01-02T00:00:00" "sample.pdf"]
  decide

/-- C2 (amended): for a fixed pair (pages, configuration) and fixed OCR
outcomes, two runs of `process_single_pdf` produce manifests that are
byte-identical except for the `processed_at` field, which records the
wall-clock time of the run; with the timestamp held fixed the manifest is
byte-identical (the rest of the pipeline is a pure function of its
input). -/
theorem c2_manifest_timestamp_only (pages : List Img) (cfg : Config)
    (ocr : Img → OcrOutcome) (t1 t2 : String) (name : String) :
    (process_single_pdf pages cfg ocr t1 name).map
        (fun r => erase_timestamp r.manifest) =
      (process_single_pdf pages cfg ocr t2 name).map
        (fun r => erase_timestamp r.manifest) := by
  unfold process_single_pdf
  cases hst : process_pages_to_single_image pages cfg.gap_ratio with
  | error e => rfl
  | ok stitched =>
    simp only [bind, Except.bind]
    cases hpr : process_regions ocr (pages.map imgHeight) pages.length
        cfg.image_format (detect_questions stitched cfg.min_gap_height
          cfg.whitespace_threshold true cfg.min_question_height) [] [] 0 with
    | error e => rfl
    | ok triple => rfl

/-- C5 counterexample: with an existing input path that is a regular file
and the `--batch` flag set, `main` calls `sys.exit(1)` (main.py:248-250)
even though the input path exists. -/
theorem c5_counterexample :
    main_outcome true false true [] [] default_config ocr_none "T" "a.pdf" =
      .exitOne := by
  rfl

/-- C5 (amended): `main` exits with code 1 exactly when the input path does
not exist or when batch mode is requested (`--batch`, or implied) for an
existing non-directory path; and the outcome never depends on the per-file
results inside a batch — per-file errors are caught by `process_batch` and
never change the process exit code. -/
theorem c5_exit_one_iff (e d b : Bool) (bf : List (String × List Img))
    (sp : List Img) (cfg : Config) (ocr : Img → OcrOutcome)
    (now name : String) :
    (main_outcome e d b bf sp cfg ocr now name = .exitOne ↔
      (e = false ∨ (b = true ∧ d = false))) ∧
    (∀ bf', main_outcome e d b bf sp cfg ocr now name =
      main_outcome e d b bf' sp cfg ocr now name) := by
  constructor
  · cases e <;> cases d <;> cases b <;>
      simp only [main_outcome] <;>
      try simp
    cases h : process_single_pdf sp cfg ocr now name <;> simp [h]
  · intro bf'
    cases e <;> cases d <;> cases b <;> rfl

/-- C5 witness: the amended exit-code characterization evaluated on a
missing input path. -/
theorem c5_exit_one_iff_witness :
    main_outcome false false false [] [] default_config ocr_none "T" "a.pdf" =
      .exitOne := by
  exact (c5_exit_one_iff false false false [] [] default_config ocr_none
    "T" "a.pdf").1.mpr (Or.inl rfl)

/-- C10: `stitch_vertically` raises `ValueError` on an empty image list, so
a PDF that rasterizes to zero pages makes `process_single_pdf` raise at the
stitching step — before detection, image saving or manifest writing (the
run produces no `RunOutput` at all) — and inside a batch this becomes that
file's `status: "error"` record. -/
theorem c10_empty_pages :
    stitch_vertically ([] : List Img) = .error "이미지 리스트가 비어있습니다." ∧
    (∀ (cfg : Config) (ocr : Img → OcrOutcome) (now name : String),
      process_single_pdf [] cfg ocr now name =
        .error "이미지 리스트가 비어있습니다.") ∧
    (∀ (cfg : Config) (ocr : Img → OcrOutcome) (now name : String)
        (files : List (String × List Img)),
      (name, ([] : List Img)) ∈ files →
      (⟨name, "error", some "이미지 리스트가 비어있습니다."⟩ : BatchRecord) ∈
        process_batch files cfg ocr now) := by
  refine ⟨rfl, fun cfg ocr now name => rfl, ?_⟩
  intro cfg ocr now name files hmem
  exact List.mem_map.mpr ⟨(name, []), hmem, rfl⟩

/-- C10 witness: a one-file batch whose file rasterizes to zero pages
yields that file's error record. -/
theorem c10_empty_pages_witness :
    (⟨"a.pdf", "error", some "이미지 리스트가 비어있습니다."⟩ : BatchRecord) ∈
      process_batch [("a.pdf", [])] default_config ocr_none "T" := by
  exact c10_empty_pages.2.2 default_config ocr_none "T" "a.pdf"
    [("a.pdf", [])] (by simp)

/-! ## Helper lemmas: segment descriptors -/

theorem buildColumnStarts_wf (hs : List Nat) :
    ∀ (n idx cur : Nat) (cols : List ColInfo),
      buildColumnStarts hs n idx cur = some cols →
      ∀ c ∈ cols, c.start ≤ c.stop := by
  intro n
  induction n with
  | zero =>
    intro idx cur cols h c hc
    simp only [buildColumnStarts, Option.some.injEq] at h
    subst h
    simp at hc
  | succ n ih =>
    intro idx cur cols h c hc
    cases hch : colHeight hs idx with
    | none => simp [buildColumnStarts, hch] at h
    | some hgt =>
      cases hb : buildColumnStarts hs n (idx + 1) (cur + hgt + hgt) with
      | none => simp [buildColumnStarts, hch, hb] at h
      | some rest =>
        simp only [buildColumnStarts, hch, hb, Option.some.injEq] at h
        subst h
        simp only [List.mem_cons] at hc
        rcases hc with rfl | rfl | hc
        · exact Nat.le_add_right cur hgt
        · exact Nat.le_add_right (cur + hgt) hgt
        · exact ih (idx + 1) (cur + hgt + hgt) rest hb c hc

theorem buildColumnStarts_contiguous (hs : List Nat) :
    ∀ (n idx cur : Nat) (cols : List ColInfo),
      buildColumnStarts hs n idx cur = some cols →
      ∃ total, Contiguous cur cols total := by
  intro n
  induction n with
  | zero =>
    intro idx cur cols h
    simp only [buildColumnStarts, Option.some.injEq] at h
    subst h
    exact ⟨cur, rfl⟩
  | succ n ih =>
    intro idx cur cols h
    cases hch : colHeight hs idx with
    | none => simp [buildColumnStarts, hch] at h
    | some hgt =>
      cases hb : buildColumnStarts hs n (idx + 1) (cur + hgt + hgt) with
      | none => simp [buildColumnStarts, hch, hb] at h
      | some rest =>
        simp only [buildColumnStarts, hch, hb, Option.some.injEq] at h
        subst h
        obtain ⟨total, htot⟩ := ih (idx + 1) (cur + hgt + hgt) rest hb
        exact ⟨total, rfl, rfl, htot⟩

theorem buildColumnStarts_contiguous_sum (hs : List Nat) :
    ∀ (n idx cur : Nat) (cols : List ColInfo),
      idx + n = hs.length →
      buildColumnStarts hs n idx cur = some cols →
      Contiguous cur cols (cur + 2 * (hs.drop idx).sum) := by
  intro n
  induction n with
  | zero =>
    intro idx cur cols hlen h
    simp only [buildColumnStarts, Option.some.injEq] at h
    subst h
    have hdrop : hs.drop idx = [] := by
      apply List.drop_eq_nil_of_le
      omega
    show cur = cur + 2 * (hs.drop idx).sum
    rw [hdrop]
    simp
  | succ n ih =>
    intro idx cur cols hlen h
    have hidx : idx < hs.length := by omega
    have hget : hs.get? idx = some hs[idx] := by
      simp [List.get?_eq_getElem?, List.getElem?_eq_getElem hidx]
    have hch : colHeight hs idx = some hs[idx] := by
      simp [colHeight, List.get?_eq_getElem?, List.getElem?_eq_getElem hidx]
    cases hb : buildColumnStarts hs n (idx + 1) (cur + hs[idx] + hs[idx]) with
    | none => simp [buildColumnStarts, hch, hb] at h
    | some rest =>
      simp only [buildColumnStarts, hch, hb, Option.some.injEq] at h
      subst h
      have hrest := ih (idx + 1) (cur + hs[idx] + hs[idx]) rest (by omega) hb
      have hsum : cur + 2 * (hs.drop idx).sum =
          cur + hs[idx] + hs[idx] + 2 * (hs.drop (idx + 1)).sum := by
        rw [List.drop_eq_getElem_cons hidx, List.sum_cons]
        ring
      rw [hsum]
      exact ⟨rfl, rfl, hrest⟩

theorem contiguous_le_total :
    ∀ (cols : List ColInfo) (cur total : Nat),
      Contiguous cur cols total → (∀ c ∈ cols, c.start ≤ c.stop) →
      cur ≤ total := by
  intro cols
  induction cols with
  | nil => intro cur total h _; exact Nat.le_of_eq h
  | cons c rest ih =>
    intro cur total h hwf
    obtain ⟨hc, hrest⟩ := h
    calc cur = c.start := hc.symm
      _ ≤ c.stop := hwf c (by simp)
      _ ≤ total := ih c.stop total hrest (fun x hx => hwf x (by simp [hx]))

theorem contiguous_start_le :
    ∀ (cols : List ColInfo) (cur total : Nat),
      Contiguous cur cols total → (∀ c ∈ cols, c.start ≤ c.stop) →
      ∀ c ∈ cols, cur ≤ c.start := by
  intro cols
  induction cols with
  | nil => intro cur total _ _ c hc; simp at hc
  | cons c rest ih =>
    intro cur total h hwf x hx
    obtain ⟨hc, hrest⟩ := h
    simp only [List.mem_cons] at hx
    rcases hx with rfl | hx
    · exact Nat.le_of_eq hc.symm
    · calc cur = c.start := hc.symm
        _ ≤ c.stop := hwf c (by simp)
        _ ≤ x.start := ih c.stop total hrest (fun z hz => hwf z (by simp [hz])) x hx

theorem contiguous_stop_le :
    ∀ (cols : List ColInfo) (cur total : Nat),
      Contiguous cur cols total → (∀ c ∈ cols, c.start ≤ c.stop) →
      ∀ c ∈ cols, c.stop ≤ total := by
  intro cols
  induction cols with
  | nil => intro cur total _ _ c hc; simp at hc
  | cons c rest ih =>
    intro cur total h hwf x hx
    obtain ⟨hc, hrest⟩ := h
    simp only [List.mem_cons] at hx
    rcases hx with rfl | hx
    · exact contiguous_le_total rest x.stop total hrest
        (fun z hz => hwf z (by simp [hz]))
    · exact ih c.stop total hrest (fun z hz => hwf z (by simp [hz])) x hx

theorem contiguous_find_eq (y : Nat) :
    ∀ (cols : List ColInfo) (cur total : Nat),
      Contiguous cur cols total → (∀ c ∈ cols, c.start ≤ c.stop) →
      ∀ seg ∈ cols, seg.start ≤ y → y < seg.stop →
      cols.find? (fun c => c.start ≤ y && y < c.stop) = some seg := by
  intro cols
  induction cols with
  | nil => intro cur total _ _ seg hseg; simp at hseg
  | cons c rest ih =>
    intro cur total h hwf seg hseg hy1 hy2
    obtain ⟨hc, hrest⟩ := h
    simp only [List.mem_cons] at hseg
    rcases hseg with rfl | hseg
    · exact List.find?_cons_of_pos rest (by simp [hy1, hy2])
    · have hle : c.stop ≤ seg.start :=
        contiguous_start_le rest c.stop total hrest
          (fun z hz => hwf z (by simp [hz])) seg hseg
      have hpred : ¬ ((decide (c.start ≤ y) && decide (y < c.stop)) = true) := by
        simp only [Bool.and_eq_true, decide_eq_true_eq, not_and]
        intro _
        omega
      rw [List.find?_cons_of_neg rest hpred]
      exact ih c.stop total hrest (fun z hz => hwf z (by simp [hz]))
        seg hseg hy1 hy2

theorem contiguous_find_none (y : Nat) :
    ∀ (cols : List ColInfo) (cur total : Nat),
      Contiguous cur cols total → (∀ c ∈ cols, c.start ≤ c.stop) →
      total ≤ y →
      cols.find? (fun c => c.start ≤ y && y < c.stop) = none := by
  intro cols cur total h hwf hy
  rw [List.find?_eq_none]
  intro x hx hp
  simp only [Bool.and_eq_true, decide_eq_true_eq] at hp
  have := contiguous_stop_le cols cur total h hwf x hx
  omega

theorem contiguous_exists_mem (y : Nat) :
    ∀ (cols : List ColInfo) (cur total : Nat),
      Contiguous cur cols total → cur ≤ y → y < total →
      ∃ c ∈ cols, c.start ≤ y ∧ y < c.stop := by
  intro cols
  induction cols with
  | nil =>
    intro cur total h h1 h2
    have heq : cur = total := h
    omega
  | cons c rest ih =>
    intro cur total h h1 h2
    obtain ⟨hc, hrest⟩ := h
    by_cases hlt : y < c.stop
    · exact ⟨c, by simp, by omega, hlt⟩
    · obtain ⟨x, hx, hx1, hx2⟩ := ih c.stop total hrest (by omega) h2
      exact ⟨x, by simp [hx], hx1, hx2⟩

theorem contiguous_pairwise :
    ∀ (cols : List ColInfo) (cur total : Nat),
      Contiguous cur cols total → (∀ c ∈ cols, c.start ≤ c.stop) →
      cols.Pairwise (fun a b => a.stop ≤ b.start) := by
  intro cols
  induction cols with
  | nil => intro _ _ _ _; exact List.Pairwise.nil
  | cons c rest ih =>
    intro cur total h hwf
    obtain ⟨hc, hrest⟩ := h
    refine List.Pairwise.cons ?_ (ih c.stop total hrest
      (fun z hz => hwf z (by simp [hz])))
    intro b hb
    exact contiguous_start_le rest c.stop total hrest
      (fun z hz => hwf z (by simp [hz])) b hb

theorem colHeight_isSome (hs : List Nat) (hne : hs ≠ []) (idx : Nat) :
    ∃ h, colHeight hs idx = some h := by
  unfold colHeight
  cases hg : hs.get? idx with
  | some v => exact ⟨v, rfl⟩
  | none => exact ⟨hs.getLast hne, List.getLast?_eq_getLast hs hne⟩

theorem buildColumnStarts_isSome (hs : List Nat) (hne : hs ≠ []) :
    ∀ (n idx cur : Nat), ∃ cols, buildColumnStarts hs n idx cur = some cols := by
  intro n
  induction n with
  | zero => intro idx cur; exact ⟨[], rfl⟩
  | succ n ih =>
    intro idx cur
    obtain ⟨h, hch⟩ := colHeight_isSome hs hne idx
    obtain ⟨rest, hrest⟩ := ih (idx + 1) (cur + h + h)
    refine ⟨⟨cur, cur + h, idx + 1, .left⟩ ::
      ⟨cur + h, cur + h + h, idx + 1, .right⟩ :: rest, ?_⟩
    simp [buildColumnStarts, hch, hrest]

theorem buildColumnStarts_ne_nil (hs : List Nat) (n idx cur : Nat)
    (cols : List ColInfo)
    (h : buildColumnStarts hs (n + 1) idx cur = some cols) : cols ≠ [] := by
  cases hch : colHeight hs idx with
  | none => simp [buildColumnStarts, hch] at h
  | some hgt =>
    cases hb : buildColumnStarts hs n (idx + 1) (cur + hgt + hgt) with
    | none => simp [buildColumnStarts, hch, hb] at h
    | some rest =>
      simp only [buildColumnStarts, hch, hb, Option.some.injEq] at h
      subst h
      simp

/-- C3: for every composite `y` inside a segment's `[start, stop)` interval,
`calculate_original_position` returns that segment's page and column with
`y_in_column = y - start`; and for `y` at or beyond the composite height
(`2 * sum of page heights`, for P ≥ 1 pages) it clamps to the last segment,
returning that segment's page and column with local `y - last.start`, which
may exceed the segment's own height. -/
theorem c3_inverse_mapping :
    (∀ (hs : List Nat) (np : Nat) (cols : List ColInfo) (seg : ColInfo)
        (y : Nat),
        column_starts hs np = some cols → seg ∈ cols →
        seg.start ≤ y → y < seg.stop →
        calculate_original_position y hs np =
          some ⟨seg.page, seg.column, y - seg.start⟩) ∧
    (∀ (hs : List Nat) (np : Nat) (cols : List ColInfo) (y : Nat),
        np = hs.length → 1 ≤ np → column_starts hs np = some cols →
        2 * hs.sum ≤ y →
        ∃ last, cols.getLast? = some last ∧
          calculate_original_position y hs np =
            some ⟨last.page, last.column, y - last.start⟩) := by
  constructor
  · intro hs np cols seg y hcs hseg hy1 hy2
    obtain ⟨total, htot⟩ := buildColumnStarts_contiguous hs np 0 0 cols hcs
    have hwf := buildColumnStarts_wf hs np 0 0 cols hcs
    simp only [calculate_original_position, hcs]
    rw [contiguous_find_eq y cols 0 total htot hwf seg hseg hy1 hy2]
  · intro hs np cols y hnp h1 hcs hy
    have htot := buildColumnStarts_contiguous_sum hs np 0 0 cols (by omega) hcs
    have hwf := buildColumnStarts_wf hs np 0 0 cols hcs
    have hne : cols ≠ [] := by
      obtain ⟨m, rfl⟩ : ∃ m, np = m + 1 := ⟨np - 1, by omega⟩
      exact buildColumnStarts_ne_nil hs m 0 0 cols hcs
    refine ⟨cols.getLast hne, List.getLast?_eq_getLast cols hne, ?_⟩
    simp only [calculate_original_position, hcs]
    rw [contiguous_find_none y cols 0 (0 + 2 * (hs.drop 0).sum) htot hwf
      (by simpa using hy), List.getLast?_eq_getLast cols hne]

/-- C3 witness: one page of height 2 — the left segment is `[0, 2)`, the
right `[2, 4)`; `y = 1` maps into the left column at local 1, and `y = 5`
(beyond the composite height 4) clamps to the right column with local 3. -/
theorem c3_inverse_mapping_witness :
    calculate_original_position 1 [2] 1 = some ⟨1, .left, 1⟩ ∧
    ∃ last, ([⟨0, 2, 1, Column.left⟩, ⟨2, 4, 1, Column.right⟩] :
        List ColInfo).getLast? = some last ∧
      calculate_original_position 5 [2] 1 =
        some ⟨last.page, last.column, 5 - last.start⟩ := by
  constructor
  · exact c3_inverse_mapping.1 [2] 1
      [⟨0, 2, 1, .left⟩, ⟨2, 4, 1, .right⟩] ⟨0, 2, 1, .left⟩ 1
      (by decide) (by decide) (by decide) (by decide)
  · exact c3_inverse_mapping.2 [2] 1
      [⟨0, 2, 1, .left⟩, ⟨2, 4, 1, .right⟩] 5
      (by decide) (by decide) (by decide) (by decide)

/-! ## Helper lemmas: stitched composite height -/

theorem columns_length (pages : List Img) (gr : ℚ) :
    ((pages.map (fun p =>
      [(split_columns p gr).1, (split_columns p gr).2])).flatten).length =
      2 * pages.length := by
  induction pages with
  | nil => rfl
  | cons p rest ih =>
    simp only [List.map_cons, List.flatten_cons, List.length_append,
      List.length_cons, ih, List.length_nil]
    omega

theorem columns_heights_sum (pages : List Img) (gr : ℚ) :
    (((pages.map (fun p =>
      [(split_columns p gr).1, (split_columns p gr).2])).flatten).map
        List.length).sum = 2 * (pages.map imgHeight).sum := by
  induction pages with
  | nil => rfl
  | cons p rest ih =>
    have h1 : (split_columns p gr).1.length = p.length := by
      simp [split_columns]
    have h2 : (split_columns p gr).2.length = p.length := by
      simp [split_columns]
    simp only [List.map_cons, List.flatten_cons, List.map_append,
      List.sum_append, List.map_cons, List.map_nil, List.sum_cons,
      List.sum_nil, h1, h2, ih, imgHeight]
    ring

theorem stitch_ok (imgs : List Img) (hne : imgs ≠ []) :
    ∃ comp, stitch_vertically imgs = .ok comp ∧
      comp.length = (imgs.map List.length).sum := by
  unfold stitch_vertically
  rw [if_neg hne]
  by_cases hl : imgs.length = 1
  · obtain ⟨im, rfl⟩ := List.length_eq_one.mp hl
    exact ⟨im, by simp, by simp⟩
  · rw [if_neg hl]
    refine ⟨_, rfl, ?_⟩
    rw [List.length_flatten, List.map_map]
    have hcomp : (List.length ∘ fun im : Img =>
        im.map (padCenter ((imgs.map imgWidth).foldl max 0))) = List.length := by
      funext im
      simp
    rw [hcomp]

theorem composite_height (pages : List Img) (gr : ℚ) (hne : pages ≠ []) :
    ∃ comp, process_pages_to_single_image pages gr = .ok comp ∧
      comp.length = 2 * (pages.map imgHeight).sum := by
  have hcl := columns_length pages gr
  have hLne : (pages.map (fun p =>
      [(split_columns p gr).1, (split_columns p gr).2])).flatten ≠ [] := by
    intro he
    rw [he] at hcl
    simp only [List.length_nil] at hcl
    have hz : pages.length = 0 := by omega
    exact hne (List.length_eq_zero.mp hz)
  obtain ⟨comp, hok, hlen⟩ := stitch_ok _ hLne
  exact ⟨comp, hok, by rw [hlen, columns_heights_sum]⟩

/-- C4: for every non-empty page list processed as 2 columns, the segment
descriptors built in canonical order (page ascending, left before right)
have `[start, stop)` intervals that are contiguous, non-overlapping, and
whose union is exactly `[0, H)` where `H` is the stitched composite's
height (the sum of all column heights). -/
theorem c4_partition (pages : List Img) (gr : ℚ) (comp : Img)
    (hne : pages ≠ [])
    (hok : process_pages_to_single_image pages gr = .ok comp) :
    ∃ cols, column_starts (pages.map imgHeight) pages.length = some cols ∧
      cols ≠ [] ∧
      Contiguous 0 cols comp.length ∧
      (∀ c ∈ cols, c.start ≤ c.stop) ∧
      cols.Pairwise (fun a b => a.stop ≤ b.start) ∧
      (∀ y : Nat, y < comp.length ↔ ∃ c ∈ cols, c.start ≤ y ∧ y < c.stop) := by
  obtain ⟨comp', hok', hlen⟩ := composite_height pages gr hne
  rw [hok] at hok'
  have hcc : comp = comp' := by
    simpa using hok'
  subst hcc
  have hhs_len : (pages.map imgHeight).length = pages.length :=
    List.length_map pages imgHeight
  have hhs_ne : pages.map imgHeight ≠ [] := by
    intro h
    exact hne (List.map_eq_nil_iff.mp h)
  obtain ⟨cols, hcs⟩ :=
    buildColumnStarts_isSome (pages.map imgHeight) hhs_ne pages.length 0 0
  have hcont := buildColumnStarts_contiguous_sum (pages.map imgHeight)
    pages.length 0 0 cols (by omega) hcs
  have hwf := buildColumnStarts_wf (pages.map imgHeight)
    pages.length 0 0 cols hcs
  have hcont' : Contiguous 0 cols comp.length := by
    have htotal : comp.length = 0 + 2 * ((pages.map imgHeight).drop 0).sum := by
      simpa using hlen
    rw [htotal]
    exact hcont
  have hcols_ne : cols ≠ [] := by
    obtain ⟨m, hm⟩ : ∃ m, pages.length = m + 1 := by
      cases pages with
      | nil => exact absurd rfl hne
      | cons a t => exact ⟨t.length, rfl⟩
    rw [hm] at hcs
    exact buildColumnStarts_ne_nil (pages.map imgHeight) m 0 0 cols hcs
  refine ⟨cols, hcs, hcols_ne, hcont', hwf,
    contiguous_pairwise cols 0 comp.length hcont' hwf, fun y => ⟨?_, ?_⟩⟩
  · intro hy
    exact contiguous_exists_mem y cols 0 comp.length hcont' (Nat.zero_le y) hy
  · rintro ⟨c, hc, h1, h2⟩
    have := contiguous_stop_le cols 0 comp.length hcont' hwf c hc
    omega

/-- C4 witness: the partition invariant instantiated on a one-page input
whose composite is the 1×2 image `[[0], [0]]`. -/
theorem c4_partition_witness :
    ∃ cols, column_starts ([[[0, 0]]].map imgHeight) [[[0, 0]]].length =
        some cols ∧
      cols ≠ [] ∧
      Contiguous 0 cols ([[0], [0]] : Img).length ∧
      (∀ c ∈ cols, c.start ≤ c.stop) ∧
      cols.Pairwise (fun a b => a.stop ≤ b.start) ∧
      (∀ y : Nat, y < ([[0], [0]] : Img).length ↔
        ∃ c ∈ cols, c.start ≤ y ∧ y < c.stop) := by
  exact c4_partition [[[0, 0]]] (5 / 100) [[0], [0]] (by simp) eval_composite

/-! ## Helper lemmas: boundary resolution -/

theorem middle_boundaries_eq (w mg : Nat) :
    ∀ gaps : List (Nat × Nat),
      middle_boundaries w mg gaps =
        (gaps.zip gaps.tail).filterMap
          (fun p => span_to_box w mg (p.1.2, p.2.1)) := by
  intro gaps
  induction gaps with
  | nil => rfl
  | cons g gs ih =>
    cases gs with
    | nil => rfl
    | cons g2 rest =>
      simp only [List.tail_cons] at ih
      simp only [middle_boundaries, List.tail_cons, List.zip_cons_cons]
      by_cases hc : mg < g2.1 - g.2
      · simp only [List.filterMap_cons]
        rw [show span_to_box w mg (g.2, g2.1) = some ⟨0, g.2, w, g2.1 - g.2⟩
          from by simp [span_to_box, hc]]
        simp only [← ih]
        simp [hc]
      · simp only [List.filterMap_cons]
        rw [show span_to_box w mg (g.2, g2.1) = none
          from by simp [span_to_box, hc]]
        simp only [← ih]
        simp [hc]

/-- C6: `find_question_boundaries` returns exactly the complement spans of
the detected gap list — the leading span before the first gap, the spans
between consecutive gaps, and the trailing span after the last gap — each
kept only if its height is strictly greater than `min_gap_height`; when the
gap list is empty it returns a single region covering the whole image. -/
theorem c6_boundaries (img : Img) (mg thr : Nat) :
    (detect_horizontal_gaps img mg thr (95 / 100) = [] →
      find_question_boundaries img mg thr =
        [⟨0, 0, imgWidth img, imgHeight img⟩]) ∧
    (detect_horizontal_gaps img mg thr (95 / 100) ≠ [] →
      find_question_boundaries img mg thr =
        (complement_spans (imgHeight img)
            (detect_horizontal_gaps img mg thr (95 / 100))).filterMap
          (span_to_box (imgWidth img) mg)) := by
  constructor
  · intro hg
    unfold find_question_boundaries
    rw [hg]
    rfl
  · intro hg
    unfold find_question_boundaries
    obtain ⟨g, gs, hgg⟩ := List.exists_cons_of_ne_nil hg
    rw [hgg]
    have hmid := middle_boundaries_eq (imgWidth img) mg (g :: gs)
    simp only [List.tail_cons] at hmid
    have hlead : span_to_box (imgWidth img) mg (0, g.1) =
        if mg < g.1 then some ⟨0, 0, imgWidth img, g.1⟩ else none := by
      simp [span_to_box]
    have htrail : span_to_box (imgWidth img) mg
        (((g :: gs).getLastD (0, 0)).2, imgHeight img) =
        if mg < imgHeight img - ((g :: gs).getLastD (0, 0)).2 then
          some ⟨0, ((g :: gs).getLastD (0, 0)).2, imgWidth img,
            imgHeight img - ((g :: gs).getLastD (0, 0)).2⟩
        else none := by
      simp [span_to_box]
    by_cases h1 : mg < g.1 <;>
      by_cases h2 : mg < imgHeight img - ((g :: gs).getLastD (0, 0)).2 <;>
      simp only [boundaries_from_gaps, complement_spans, List.filterMap_cons,
        List.filterMap_append, List.filterMap_map, hmid, hlead, htrail,
        h1, h2, if_true, if_false, List.filterMap_nil, List.append_nil,
        List.nil_append, List.append_assoc, List.cons_append] <;>
      rfl

theorem eval_gaps_wd :
    detect_horizontal_gaps [[255], [0]] 1 250 (95 / 100) = [(0, 1)] := by
  simp only [detect_horizontal_gaps, List.map, is_gap_row_white,
    is_gap_row_dark]
  rfl

/-- C6 witness: an all-dark 1×2 image has no gaps, so the whole image is
the single region; and a white-then-dark 1×2 image with `min_gap_height`
1 realizes the non-empty-gap complement equation. -/
theorem c6_boundaries_witness :
    find_question_boundaries [[0], [0]] 30 250 =
      [⟨0, 0, imgWidth [[0], [0]], imgHeight [[0], [0]]⟩] ∧
    find_question_boundaries [[255], [0]] 1 250 =
      (complement_spans (imgHeight [[255], [0]])
          (detect_horizontal_gaps [[255], [0]] 1 250 (95 / 100))).filterMap
        (span_to_box (imgWidth [[255], [0]]) 1) := by
  constructor
  · exact (c6_boundaries [[0], [0]] 30 250).1 (eval_gaps_dark 30)
  · exact (c6_boundaries [[255], [0]] 1 250).2 (by rw [eval_gaps_wd]; simp)

/-! ## Helper lemmas: run-length encoding of gap rows -/

theorem gap_rle_mem_iff (mg : Nat) (F : List Bool) :
    ∀ (rest : List Bool) (y : Nat) (gs : Option Nat),
      rest = F.drop y → y ≤ F.length → RleInv F y gs →
      ∀ a b, ((a, b) ∈ gap_rle mg rest y gs ↔
        IsMaxRun F a b ∧ mg ≤ b - a ∧ rleLower y gs ≤ a) := by
  intro rest
  induction rest with
  | nil =>
    intro y gs hdrop hy hinv a b
    have hylen : y = F.length := by
      have := List.drop_eq_nil_iff.mp hdrop.symm
      omega
    cases gs with
    | none =>
      simp only [gap_rle, List.not_mem_nil, false_iff]
      rintro ⟨⟨h1, h2, _, _, _⟩, _, hla⟩
      simp only [rleLower] at hla
      omega
    | some s =>
      obtain ⟨hs_lt, hall, hleft⟩ := hinv
      have hab : IsMaxRun F a b → s ≤ a → a = s ∧ b = y := by
        rintro ⟨h1, h2, h3, h4, h5⟩ hsa
        have hby : b ≤ y := by omega
        have has : a = s := by
          rcases Nat.lt_or_ge s a with hlt | hge
          · rcases h4 with h4 | h4
            · omega
            · have := hall (a - 1) (by omega) (by omega)
              rw [h4] at this
              exact absurd this (by simp)
          · omega
        have hbe : b = y := by
          rcases Nat.lt_or_ge b y with hlt | hge
          · rcases h5 with h5 | h5
            · omega
            · have := hall b (by omega) (by omega)
              rw [h5] at this
              exact absurd this (by simp)
          · omega
        exact ⟨has, hbe⟩
      simp only [gap_rle]
      by_cases hif : mg ≤ y - s
      · rw [if_pos hif]
        simp only [List.mem_singleton, Prod.mk.injEq, rleLower]
        constructor
        · rintro ⟨rfl, rfl⟩
          exact ⟨⟨hs_lt, by omega, fun i hi1 hi2 => hall i hi1 hi2, hleft,
            Or.inl hylen⟩, hif, Nat.le_refl a⟩
        · rintro ⟨hmr, hmg, hsa⟩
          obtain ⟨rfl, rfl⟩ := hab hmr hsa
          exact ⟨rfl, rfl⟩
      · rw [if_neg hif]
        simp only [List.not_mem_nil, false_iff, rleLower]
        rintro ⟨hmr, hmg, hsa⟩
        obtain ⟨rfl, rfl⟩ := hab hmr hsa
        omega
  | cons f rest' ih =>
    intro y gs hdrop hy hinv a b
    have hylt : y < F.length := by
      rcases Nat.lt_or_ge y F.length with h | h
      · exact h
      · rw [List.drop_eq_nil_iff.mpr h] at hdrop
        simp at hdrop
    have hsplit : f :: rest' = F[y] :: F.drop (y + 1) := by
      rw [hdrop]
      exact List.drop_eq_getElem_cons hylt
    have hf : f = F[y] := by injection hsplit
    have hrest' : rest' = F.drop (y + 1) := by injection hsplit
    have hflag : flagAt F y = f := by
      rw [flagAt, List.getD_eq_getElem F false hylt, hf]
    cases f with
    | true =>
      cases gs with
      | none =>
        simp only [gap_rle]
        have := ih (y + 1) (some y) hrest' (by omega)
          ⟨Nat.lt_succ_self y, ?_, hinv⟩ a b
        · simpa [rleLower] using this
        · intro i hi1 hi2
          have : i = y := by omega
          subst this
          exact hflag
      | some s =>
        obtain ⟨hs_lt, hall, hleft⟩ := hinv
        simp only [gap_rle]
        have := ih (y + 1) (some s) hrest' (by omega)
          ⟨by omega, ?_, hleft⟩ a b
        · simpa [rleLower] using this
        · intro i hi1 hi2
          rcases Nat.lt_or_ge i y with h | h
          · exact hall i hi1 h
          · have : i = y := by omega
            subst this
            exact hflag
    | false =>
      cases gs with
      | none =>
        simp only [gap_rle]
        rw [ih (y + 1) none hrest' (by omega) (Or.inr (by simpa using hflag)) a b]
        simp only [rleLower]
        constructor
        · rintro ⟨hmr, hmg, hla⟩
          exact ⟨hmr, hmg, by omega⟩
        · rintro ⟨hmr, hmg, hla⟩
          refine ⟨hmr, hmg, ?_⟩
          have hat : flagAt F a = true := hmr.2.2.1 a (Nat.le_refl a) hmr.1
          have hane : a ≠ y := by
            intro he
            rw [he, hflag] at hat
            exact absurd hat (by simp)
          omega
      | some s =>
        obtain ⟨hs_lt, hall, hleft⟩ := hinv
        simp only [gap_rle, List.mem_append]
        rw [ih (y + 1) none hrest' (by omega) (Or.inr (by simpa using hflag)) a b]
        simp only [rleLower]
        have hrun : IsMaxRun F s y :=
          ⟨hs_lt, by omega, hall, hleft, Or.inr (by simpa using hflag)⟩
        constructor
        · rintro (hmem1 | ⟨hmr, hmg, hla⟩)
          · by_cases hif : mg ≤ y - s
            · rw [if_pos hif] at hmem1
              simp only [List.mem_singleton, Prod.mk.injEq] at hmem1
              obtain ⟨rfl, rfl⟩ := hmem1
              exact ⟨hrun, hif, Nat.le_refl a⟩
            · rw [if_neg hif] at hmem1
              simp at hmem1
          · exact ⟨hmr, hmg, by omega⟩
        · rintro ⟨hmr, hmg, hsa⟩
          by_cases hay : a ≤ y
          · left
            obtain ⟨h1, h2, h3, h4, h5⟩ := hmr
            have hby : b ≤ y := by
              by_contra hby
              have := h3 y hay (by omega)
              rw [hflag] at this
              exact absurd this (by simp)
            have has : a = s := by
              rcases Nat.lt_or_ge s a with hlt | hge
              · rcases h4 with h4 | h4
                · omega
                · have := hall (a - 1) (by omega) (by omega)
                  rw [h4] at this
                  exact absurd this (by simp)
              · omega
            have hbe : b = y := by
              rcases Nat.lt_or_ge b y with hlt | hge
              · rcases h5 with h5 | h5
                · omega
                · have := hall b (by omega) (by omega)
                  rw [h5] at this
                  exact absurd this (by simp)
              · omega
            subst has
            subst hbe
            rw [if_pos hmg]
            simp
          · right
            exact ⟨hmr, hmg, by omega⟩

theorem gap_rle_start_lower (mg : Nat) :
    ∀ (rest : List Bool) (y : Nat) (gs : Option Nat),
      (∀ s, gs = some s → s ≤ y) →
      ∀ p ∈ gap_rle mg rest y gs, rleLower y gs ≤ p.1 := by
  intro rest
  induction rest with
  | nil =>
    intro y gs hgs p hp
    cases gs with
    | none => simp [gap_rle] at hp
    | some s =>
      simp only [gap_rle] at hp
      split at hp
      · simp only [List.mem_singleton] at hp
        subst hp
        exact Nat.le_refl s
      · simp at hp
  | cons f rest' ih =>
    intro y gs hgs p hp
    cases f with
    | true =>
      cases gs with
      | none =>
        simp only [gap_rle] at hp
        have := ih (y + 1) (some y) (by intro s hs; injection hs with h; omega) p hp
        simpa [rleLower] using this
      | some s =>
        simp only [gap_rle] at hp
        have hsy := hgs s rfl
        have := ih (y + 1) (some s)
          (by intro s' hs'; injection hs' with h; omega) p hp
        simpa [rleLower] using this
    | false =>
      cases gs with
      | none =>
        simp only [gap_rle] at hp
        have := ih (y + 1) none (by simp) p hp
        simp only [rleLower] at this ⊢
        omega
      | some s =>
        simp only [gap_rle, List.mem_append] at hp
        have hsy := hgs s rfl
        rcases hp with hp | hp
        · split at hp
          · simp only [List.mem_singleton] at hp
            subst hp
            exact Nat.le_refl s
          · simp at hp
        · have := ih (y + 1) none (by simp) p hp
          simp only [rleLower] at this ⊢
          omega

theorem gap_rle_chain (mg : Nat) :
    ∀ (rest : List Bool) (y : Nat) (gs : Option Nat),
      (∀ s, gs = some s → s ≤ y) →
      List.Chain' (fun p q : Nat × Nat => p.2 ≤ q.1) (gap_rle mg rest y gs) := by
  intro rest
  induction rest with
  | nil =>
    intro y gs hgs
    cases gs with
    | none => simp [gap_rle]
    | some s =>
      simp only [gap_rle]
      split
      · exact List.chain'_singleton _
      · exact List.chain'_nil
  | cons f rest' ih =>
    intro y gs hgs
    cases f with
    | true =>
      cases gs with
      | none =>
        simp only [gap_rle]
        exact ih (y + 1) (some y) (by intro s hs; injection hs with h; omega)
      | some s =>
        simp only [gap_rle]
        have hsy := hgs s rfl
        exact ih (y + 1) (some s) (by intro s' hs'; injection hs' with h; omega)
    | false =>
      cases gs with
      | none =>
        simp only [gap_rle]
        exact ih (y + 1) none (by simp)
      | some s =>
        simp only [gap_rle]
        by_cases hif : mg ≤ y - s
        · rw [if_pos hif, List.singleton_append, List.chain'_cons']
          refine ⟨?_, ih (y + 1) none (by simp)⟩
          intro q hq
          have hmem : q ∈ gap_rle mg rest' (y + 1) none := by
            cases hl : gap_rle mg rest' (y + 1) none with
            | nil => rw [hl] at hq; simp at hq
            | cons q0 t =>
              rw [hl] at hq
              simp only [List.head?_cons, Option.mem_def,
                Option.some.injEq] at hq
              subst hq
              simp [hl]
          have := gap_rle_start_lower mg rest' (y + 1) none (by simp) q hmem
          simp only [rleLower] at this
          show y ≤ q.1
          omega
        · rw [if_neg hif, List.nil_append]
          exact ih (y + 1) none (by simp)

/-- C7: `detect_horizontal_gaps` marks a row as a gap row exactly when the
fraction of its pixels at or above `whitespace_threshold` is at least
`min_white_ratio`, groups consecutive gap rows into maximal runs, and
returns precisely the runs of length at least `min_gap_height` as half-open
intervals in ascending order (a run extending to the bottom of the image
included). -/
theorem c7_gap_detection (img : Img) (mg thr : Nat) (ratio : ℚ) :
    (∀ row : List Nat, is_gap_row row thr ratio = true ↔
      ratio ≤ ((row.countP (fun v => thr ≤ v) : ℚ) / (row.length : ℚ))) ∧
    (∀ s e : Nat, (s, e) ∈ detect_horizontal_gaps img mg thr ratio ↔
      IsMaxRun (img.map (fun row => is_gap_row row thr ratio)) s e ∧
        mg ≤ e - s) ∧
    List.Chain' (fun p q : Nat × Nat => p.2 ≤ q.1)
      (detect_horizontal_gaps img mg thr ratio) := by
  refine ⟨?_, ?_, ?_⟩
  · intro row
    simp [is_gap_row]
  · intro s e
    have h := gap_rle_mem_iff mg
      (img.map fun row => is_gap_row row thr ratio)
      (img.map fun row => is_gap_row row thr ratio) 0 none
      (List.drop_zero _).symm (Nat.zero_le _) (Or.inl rfl) s e
    simpa [detect_horizontal_gaps, rleLower] using h
  · exact gap_rle_chain mg _ 0 none (by simp)

/-- C7 witness: on the 1×4 image white-white-dark-white with
`min_gap_height` 1, the detected interval `(0, 2)` is a maximal gap-row run
of length at least 1. -/
theorem c7_gap_detection_witness :
    IsMaxRun ([[255], [255], [0], [255]].map
      (fun row => is_gap_row row 250 (95 / 100))) 0 2 ∧ 1 ≤ 2 - 0 := by
  have heval : detect_horizontal_gaps [[255], [255], [0], [255]] 1 250
      (95 / 100) = [(0, 2), (3, 4)] := by
    simp only [detect_horizontal_gaps, List.map, is_gap_row_white,
      is_gap_row_dark]
    rfl
  exact ((c7_gap_detection [[255], [255], [0], [255]] 1 250 (95 / 100)).2.1
    0 2).mp (by rw [heval]; simp)

/-! ## Helper lemmas: whitespace trimming -/

theorem getLastD_cons_mem (a : Nat) (t : List Nat) :
    (a :: t).getLastD 0 ∈ a :: t := by
  rw [List.getLastD_eq_getLast? 0 (a :: t),
    List.getLast?_eq_getLast (a :: t) (by simp)]
  simp only [Option.getD_some]
  exact List.getLast_mem _

theorem sorted_le_getLastD :
    ∀ (l : List Nat), l.Pairwise (· < ·) → ∀ x ∈ l, x ≤ l.getLastD 0 := by
  intro l
  induction l with
  | nil => intro _ x hx; simp at hx
  | cons a t ih =>
    intro hp x hx
    have hpt : t.Pairwise (· < ·) := (List.pairwise_cons.mp hp).2
    cases t with
    | nil =>
      simp only [List.mem_singleton] at hx
      subst hx
      rfl
    | cons b t' =>
      have hstep : (a :: b :: t').getLastD 0 = (b :: t').getLastD 0 := by
        rw [List.getLastD_eq_getLast? 0, List.getLastD_eq_getLast? 0,
          List.getLast?_cons_cons]
      rcases List.mem_cons.mp hx with rfl | hxt
      · rw [hstep]
        exact Nat.le_of_lt ((List.pairwise_cons.mp hp).1 _ (getLastD_cons_mem b t'))
      · rw [hstep]
        exact ih hpt x hxt

theorem sorted_head_le (a : Nat) (t : List Nat)
    (hp : (a :: t).Pairwise (· < ·)) : ∀ x ∈ a :: t, a ≤ x := by
  intro x hx
  rcases List.mem_cons.mp hx with rfl | hxt
  · exact Nat.le_refl x
  · exact Nat.le_of_lt ((List.pairwise_cons.mp hp).1 x hxt)

theorem pixel_lt_in_bounds (img : Img) (thr x y : Nat) (hthr : thr ≤ 255)
    (h : pixel img x y < thr) :
    y < img.length ∧ x < (img.getD y []).length := by
  unfold pixel at h
  by_cases hy : y < img.length
  · refine ⟨hy, ?_⟩
    by_cases hx : x < (img.getD y []).length
    · exact hx
    · rw [List.getD_eq_default _ _ (by omega)] at h
      omega
  · rw [show img.getD y [] = [] from List.getD_eq_default _ _ (by omega)] at h
    simp only [List.getD_nil] at h
    omega

theorem row_has_content_iff (img : Img) (thr y : Nat) (hthr : thr ≤ 255) :
    row_has_content img thr y = true ↔ ∃ x, pixel img x y < thr := by
  unfold row_has_content
  rw [List.any_eq_true]
  constructor
  · rintro ⟨v, hv, hlt⟩
    simp only [decide_eq_true_eq] at hlt
    obtain ⟨x, hx, heq⟩ := List.mem_iff_getElem.mp hv
    refine ⟨x, ?_⟩
    unfold pixel
    rw [List.getD_eq_getElem _ _ hx, heq]
    exact hlt
  · rintro ⟨x, hx⟩
    have hb := pixel_lt_in_bounds img thr x y hthr hx
    refine ⟨(img.getD y [])[x], List.getElem_mem hb.2, ?_⟩
    simp only [decide_eq_true_eq]
    unfold pixel at hx
    rw [List.getD_eq_getElem _ _ hb.2] at hx
    exact hx

theorem col_has_content_iff (img : Img) (thr x : Nat) (hthr : thr ≤ 255) :
    col_has_content img thr x = true ↔ ∃ y, pixel img x y < thr := by
  unfold col_has_content
  rw [List.any_eq_true]
  constructor
  · rintro ⟨row, hrow, hlt⟩
    simp only [decide_eq_true_eq] at hlt
    obtain ⟨y, hy, heq⟩ := List.mem_iff_getElem.mp hrow
    refine ⟨y, ?_⟩
    unfold pixel
    rw [List.getD_eq_getElem _ _ hy, heq]
    exact hlt
  · rintro ⟨y, hy⟩
    have hb := pixel_lt_in_bounds img thr x y hthr hy
    refine ⟨img[y], List.getElem_mem hb.1, ?_⟩
    simp only [decide_eq_true_eq]
    unfold pixel at hy
    rw [List.getD_eq_getElem _ _ hb.1] at hy
    exact hy

theorem trim_whitespace_bbox (img : Img) (thr pad px py : Nat)
    (hrect : Rectangular img) (hthr : thr ≤ 255)
    (hp : pixel img px py < thr) :
    ∃ ymin ymax xmin xmax,
      (∃ x, pixel img x ymin < thr) ∧
      (∃ x, pixel img x ymax < thr) ∧
      (∃ y, pixel img xmin y < thr) ∧
      (∃ y, pixel img xmax y < thr) ∧
      (∀ x y, pixel img x y < thr →
        ymin ≤ y ∧ y ≤ ymax ∧ xmin ≤ x ∧ x ≤ xmax) ∧
      trim_whitespace img thr pad =
        crop_box img ⟨xmin - pad, ymin - pad,
          min (imgWidth img) (xmax + pad + 1) - (xmin - pad),
          min img.length (ymax + pad + 1) - (ymin - pad)⟩ := by
  have hbounds := pixel_lt_in_bounds img thr px py hthr hp
  have hyw : px < imgWidth img := by
    have := hrect (img.getD py []) (by
      rw [List.getD_eq_getElem _ _ hbounds.1]
      exact List.getElem_mem hbounds.1)
    omega
  have hymem : py ∈ (List.range img.length).filter (row_has_content img thr) := by
    rw [List.mem_filter, List.mem_range]
    exact ⟨hbounds.1, (row_has_content_iff img thr py hthr).mpr ⟨px, hp⟩⟩
  have hxmem : px ∈ (List.range (imgWidth img)).filter (col_has_content img thr) := by
    rw [List.mem_filter, List.mem_range]
    exact ⟨hyw, (col_has_content_iff img thr px hthr).mpr ⟨py, hp⟩⟩
  cases hys : (List.range img.length).filter (row_has_content img thr) with
  | nil => rw [hys] at hymem; simp at hymem
  | cons a t =>
    cases hxs : (List.range (imgWidth img)).filter (col_has_content img thr) with
    | nil => rw [hxs] at hxmem; simp at hxmem
    | cons c u =>
      have hysorted : (a :: t).Pairwise (· < ·) := by
        rw [← hys]
        exact (List.pairwise_lt_range _).filter _
      have hxsorted : (c :: u).Pairwise (· < ·) := by
        rw [← hxs]
        exact (List.pairwise_lt_range _).filter _
      have hy_iff : ∀ y, y ∈ a :: t ↔
          (∃ x, pixel img x y < thr) := by
        intro y
        rw [← hys, List.mem_filter, List.mem_range]
        constructor
        · rintro ⟨_, hc⟩
          exact (row_has_content_iff img thr y hthr).mp hc
        · intro hc
          exact ⟨(pixel_lt_in_bounds img thr hc.choose y hthr hc.choose_spec).1,
            (row_has_content_iff img thr y hthr).mpr hc⟩
      have hx_iff : ∀ x, x ∈ c :: u ↔
          (∃ y, pixel img x y < thr) := by
        intro x
        rw [← hxs, List.mem_filter, List.mem_range]
        constructor
        · rintro ⟨_, hc⟩
          exact (col_has_content_iff img thr x hthr).mp hc
        · intro hc
          refine ⟨?_, (col_has_content_iff img thr x hthr).mpr hc⟩
          obtain ⟨y, hy⟩ := hc
          have hb := pixel_lt_in_bounds img thr x y hthr hy
          have := hrect (img.getD y []) (by
            rw [List.getD_eq_getElem _ _ hb.1]
            exact List.getElem_mem hb.1)
          omega
      refine ⟨a, (a :: t).getLastD 0, c, (c :: u).getLastD 0,
        (hy_iff a).mp (by simp),
        (hy_iff _).mp (getLastD_cons_mem a t),
        (hx_iff c).mp (by simp),
        (hx_iff _).mp (getLastD_cons_mem c u), ?_, ?_⟩
      · intro x y hxy
        have hyin : y ∈ a :: t := (hy_iff y).mpr ⟨x, hxy⟩
        have hxin : x ∈ c :: u := (hx_iff x).mpr ⟨y, hxy⟩
        exact ⟨sorted_head_le a t hysorted y hyin,
          sorted_le_getLastD (a :: t) hysorted y hyin,
          sorted_head_le c u hxsorted x hxin,
          sorted_le_getLastD (c :: u) hxsorted x hxin⟩
      · simp only [trim_whitespace]
        rw [hys, hxs]
        simp only [List.isEmpty_cons, Bool.or_self, Bool.false_eq_true,
          if_false, List.headD_cons]

/-- C8: `trim_whitespace` crops to the tight bounding box of the pixels
strictly below the threshold, expanded by the fixed padding and clamped to
the image bounds; a region with no such pixel is returned unchanged (so no
empty crop is ever produced); in particular a region whose only non-white
pixel is at `(px, py)` yields the 1×1 box at `(px, py)` expanded by the
padding and clamped to the image edges. -/
theorem c8_trim :
    (∀ (img : Img) (thr pad : Nat),
      (∀ x y, ¬ pixel img x y < thr) → trim_whitespace img thr pad = img) ∧
    (∀ (img : Img) (thr pad px py : Nat),
      Rectangular img → thr ≤ 255 → pixel img px py < thr →
      ∃ ymin ymax xmin xmax,
        (∃ x, pixel img x ymin < thr) ∧
        (∃ x, pixel img x ymax < thr) ∧
        (∃ y, pixel img xmin y < thr) ∧
        (∃ y, pixel img xmax y < thr) ∧
        (∀ x y, pixel img x y < thr →
          ymin ≤ y ∧ y ≤ ymax ∧ xmin ≤ x ∧ x ≤ xmax) ∧
        trim_whitespace img thr pad =
          crop_box img ⟨xmin - pad, ymin - pad,
            min (imgWidth img) (xmax + pad + 1) - (xmin - pad),
            min img.length (ymax + pad + 1) - (ymin - pad)⟩) ∧
    (∀ (img : Img) (thr pad px py : Nat),
      Rectangular img → thr ≤ 255 → pixel img px py < thr →
      (∀ x y, pixel img x y < thr → x = px ∧ y = py) →
      trim_whitespace img thr pad =
        crop_box img ⟨px - pad, py - pad,
          min (imgWidth img) (px + pad + 1) - (px - pad),
          min img.length (py + pad + 1) - (py - pad)⟩) := by
  refine ⟨?_, ?_, ?_⟩
  · intro img thr pad hno
    have hys : (List.range img.length).filter (row_has_content img thr) = [] := by
      rw [List.filter_eq_nil_iff]
      intro y _
      intro hc
      unfold row_has_content at hc
      rw [List.any_eq_true] at hc
      obtain ⟨v, hv, hlt⟩ := hc
      simp only [decide_eq_true_eq] at hlt
      obtain ⟨x, hx, heq⟩ := List.mem_iff_getElem.mp hv
      exact hno x y (by unfold pixel; rw [List.getD_eq_getElem _ _ hx, heq]; exact hlt)
    simp only [trim_whitespace]
    rw [hys]
    simp
  · intro img thr pad px py hrect hthr hp
    exact trim_whitespace_bbox img thr pad px py hrect hthr hp
  · intro img thr pad px py hrect hthr hp huniq
    obtain ⟨ymin, ymax, xmin, xmax, hy1, hy2, hx1, hx2, _, heq⟩ :=
      trim_whitespace_bbox img thr pad px py hrect hthr hp
    have eymin : ymin = py := by
      obtain ⟨x, hx⟩ := hy1
      exact (huniq x ymin hx).2
    have eymax : ymax = py := by
      obtain ⟨x, hx⟩ := hy2
      exact (huniq x ymax hx).2
    have exmin : xmin = px := by
      obtain ⟨y, hy⟩ := hx1
      exact (huniq xmin y hy).1
    have exmax : xmax = px := by
      obtain ⟨y, hy⟩ := hx2
      exact (huniq xmax y hy).1
    rw [eymin, eymax, exmin, exmax] at heq
    exact heq

/-- C8 witness: a 3×3 all-white image with a single dark pixel at `(1, 1)`
and padding 1 trims to the whole image (the 1×1 box expanded by 1 on each
side). -/
theorem c8_trim_witness :
    trim_whitespace [[255, 255, 255], [255, 0, 255], [255, 255, 255]] 250 1 =
      crop_box [[255, 255, 255], [255, 0, 255], [255, 255, 255]]
        ⟨1 - 1, 1 - 1,
          min (imgWidth [[255, 255, 255], [255, 0, 255], [255, 255, 255]])
            (1 + 1 + 1) - (1 - 1),
          min ([[255, 255, 255], [255, 0, 255], [255, 255, 255]] : Img).length
            (1 + 1 + 1) - (1 - 1)⟩ := by
  refine c8_trim.2.2 [[255, 255, 255], [255, 0, 255], [255, 255, 255]]
    250 1 1 1 (by unfold Rectangular imgWidth; decide) (by decide) (by decide)
    ?_
  intro x y hxy
  have hb := pixel_lt_in_bounds [[255, 255, 255], [255, 0, 255],
    [255, 255, 255]] 250 x y (by decide) hxy
  have hy3 : y < 3 := by simpa using hb.1
  have hx3 : x < 3 := by
    interval_cases y <;> simpa using hb.2
  interval_cases x <;> interval_cases y <;> revert hxy <;> decide

/-! ## Helper lemmas: the per-region loop of process_single_pdf -/

theorem parse_question_number_range (t : List Char) (n : Nat)
    (h : parse_question_number t = some n) : 1 ≤ n ∧ n ≤ 999 := by
  cases hs : search_digits_1_3 (strip_text t) with
  | none => simp [parse_question_number, hs] at h
  | some ds =>
    simp only [parse_question_number, hs] at h
    by_cases hc : 1 ≤ parse_digits ds ∧ parse_digits ds ≤ 999
    · rw [if_pos hc] at h
      injection h with h
      rw [← h]
      exact hc
    · rw [if_neg hc] at h
      simp at h

theorem extract_number_range (o : OcrOutcome) (n : Nat)
    (h : extract_question_number_from_top_left o = some n) :
    1 ≤ n ∧ n ≤ 999 := by
  cases hc : o.constrained with
  | some t =>
    simp only [extract_question_number_from_top_left, hc] at h
    exact parse_question_number_range t n h
  | none =>
    cases hf : o.fallback with
    | some t =>
      simp only [extract_question_number_from_top_left, hc, hf] at h
      exact parse_question_number_range t n h
    | none =>
      simp [extract_question_number_from_top_left, hc, hf] at h

theorem process_regions_spec (ocr : Img → OcrOutcome) (hs : List Nat)
    (np : Nat) (fmt : String) :
    ∀ (regions : List (Img × BoundingBox)) (records : List QuestionRecord)
      (saved : List String) (skipped : Nat) (records' : List QuestionRecord)
      (saved' : List String) (skipped' : Nat),
      process_regions ocr hs np fmt regions records saved skipped =
        .ok (records', saved', skipped') →
      (∀ r ∈ records',
        r ∈ records ∨ ∃ n, r.number = some n ∧ 1 ≤ n ∧ n ≤ 999) ∧
      records'.length + skipped' = records.length + skipped + regions.length ∧
      saved'.length + records.length = records'.length + saved.length := by
  intro regions
  induction regions with
  | nil =>
    intro records saved skipped r' s' k' h
    simp only [process_regions, Except.ok.injEq, Prod.mk.injEq] at h
    obtain ⟨h1, h2, h3⟩ := h
    subst h1
    subst h2
    subst h3
    exact ⟨fun r hr => Or.inl hr, by simp, by omega⟩
  | cons rb rest ih =>
    intro records saved skipped r' s' k' h
    obtain ⟨region, bbox⟩ := rb
    cases hext : extract_question_number_from_top_left (ocr region) with
    | none =>
      simp only [process_regions, hext] at h
      obtain ⟨hmem, hlen, hsav⟩ := ih records saved (skipped + 1) r' s' k' h
      refine ⟨hmem, ?_, by omega⟩
      rw [List.length_cons]
      omega
    | some n =>
      cases hpos : calculate_original_position bbox.y hs np with
      | none => simp [process_regions, hext, hpos] at h
      | some pos =>
        simp only [process_regions, hext, hpos] at h
        obtain ⟨hmem, hlen, hsav⟩ := ih _ _ skipped r' s' k' h
        refine ⟨?_, ?_, ?_⟩
        · intro r hr
          rcases hmem r hr with hin | hrange
          · rcases List.mem_append.mp hin with hin | hin
            · exact Or.inl hin
            · simp only [List.mem_singleton] at hin
              subst hin
              exact Or.inr ⟨n, rfl, extract_number_range _ n hext⟩
          · exact Or.inr hrange
        · simp only [List.length_append, List.length_singleton] at hlen
          simp only [List.length_cons]
          omega
        · simp only [List.length_append, List.length_singleton] at hsav
          omega

theorem calculate_original_position_isSome (y : Nat) (hs : List Nat)
    (np : Nat) (hne : hs ≠ []) (h1 : 1 ≤ np) :
    ∃ pos, calculate_original_position y hs np = some pos := by
  obtain ⟨cols, hcs⟩ := buildColumnStarts_isSome hs hne np 0 0
  have hcol : column_starts hs np = some cols := hcs
  have hcols_ne : cols ≠ [] := by
    obtain ⟨m, hm⟩ : ∃ m, np = m + 1 := ⟨np - 1, by omega⟩
    rw [hm] at hcs
    exact buildColumnStarts_ne_nil hs m 0 0 cols hcs
  cases hf : cols.find? (fun c => c.start ≤ y && y < c.stop) with
  | some c =>
    exact ⟨⟨c.page, c.column, y - c.start⟩,
      by simp only [calculate_original_position, hcol, hf]⟩
  | none =>
    refine ⟨⟨(cols.getLast hcols_ne).page, (cols.getLast hcols_ne).column,
      y - (cols.getLast hcols_ne).start⟩, ?_⟩
    simp only [calculate_original_position, hcol, hf,
      List.getLast?_eq_getLast cols hcols_ne]

theorem process_regions_isSome (ocr : Img → OcrOutcome) (hs : List Nat)
    (np : Nat) (fmt : String) (hne : hs ≠ []) (h1 : 1 ≤ np) :
    ∀ (regions : List (Img × BoundingBox)) (records : List QuestionRecord)
      (saved : List String) (skipped : Nat),
      ∃ out, process_regions ocr hs np fmt regions records saved skipped =
        .ok out := by
  intro regions
  induction regions with
  | nil => intro r s k; exact ⟨(r, s, k), rfl⟩
  | cons rb rest ih =>
    intro r s k
    obtain ⟨region, bbox⟩ := rb
    cases hext : extract_question_number_from_top_left (ocr region) with
    | none =>
      obtain ⟨out, hout⟩ := ih r s (k + 1)
      exact ⟨out, by simp only [process_regions, hext]; exact hout⟩
    | some n =>
      obtain ⟨pos, hpos⟩ := calculate_original_position_isSome bbox.y hs np hne h1
      obtain ⟨out, hout⟩ := ih _ _ k
      exact ⟨out, by simp only [process_regions, hext, hpos]; exact hout⟩

/-- C9: every question record that `process_single_pdf` adds to the manifest
has a number in `[1, 999]`; a region whose number extraction yields `None`
is discarded — counted in `skipped`, contributing no record and no saved
image (records and saved images stay in bijection, and records plus skips
account for every detected region) — and the run still completes without an
error for every input (a discard is never surfaced as a failure). -/
theorem c9_numbered_output :
    (∀ (pages : List Img) (cfg : Config) (ocr : Img → OcrOutcome)
        (now name : String) (out : RunOutput),
      process_single_pdf pages cfg ocr now name = .ok out →
      (∀ r ∈ out.manifest.questions,
        ∃ n, r.number = some n ∧ 1 ≤ n ∧ n ≤ 999) ∧
      out.manifest.total_questions = out.manifest.questions.length ∧
      out.saved_images.length = out.manifest.questions.length ∧
      (∀ comp, process_pages_to_single_image pages cfg.gap_ratio = .ok comp →
        out.manifest.questions.length + out.skipped =
          (detect_questions comp cfg.min_gap_height cfg.whitespace_threshold
            true cfg.min_question_height).length)) ∧
    (∀ (pages : List Img) (cfg : Config) (ocr : Img → OcrOutcome)
        (now name : String), pages ≠ [] →
      ∃ out, process_single_pdf pages cfg ocr now name = .ok out) := by
  constructor
  · intro pages cfg ocr now name out h
    cases hst : process_pages_to_single_image pages cfg.gap_ratio with
    | error e => simp [process_single_pdf, hst, bind, Except.bind] at h
    | ok comp0 =>
      simp only [process_single_pdf, hst, bind, Except.bind] at h
      cases hpr : process_regions ocr (pages.map imgHeight) pages.length
          cfg.image_format (detect_questions comp0 cfg.min_gap_height
            cfg.whitespace_threshold true cfg.min_question_height) [] [] 0 with
      | error e => rw [hpr] at h; simp at h
      | ok triple =>
        obtain ⟨r, s, k⟩ := triple
        rw [hpr] at h
        simp only [Except.ok.injEq] at h
        subst h
        obtain ⟨hmem, hlen, hsav⟩ := process_regions_spec ocr
          (pages.map imgHeight) pages.length cfg.image_format
          (detect_questions comp0 cfg.min_gap_height cfg.whitespace_threshold
            true cfg.min_question_height) [] [] 0 r s k hpr
        refine ⟨?_, rfl, ?_, ?_⟩
        · intro rec hrec
          rcases hmem rec hrec with hin | hrange
          · simp at hin
          · exact hrange
        · simpa using hsav
        · intro comp hcomp
          have hcc : comp0 = comp := by
            simpa using hcomp
          subst hcc
          simpa using hlen
  · intro pages cfg ocr now name hne
    obtain ⟨comp, hok, _⟩ := composite_height pages cfg.gap_ratio hne
    have hhs_ne : pages.map imgHeight ≠ [] := fun h =>
      hne (List.map_eq_nil_iff.mp h)
    have h1 : 1 ≤ pages.length := by
      cases pages with
      | nil => exact absurd rfl hne
      | cons a t => simp
    obtain ⟨out0, hpr⟩ := process_regions_isSome ocr (pages.map imgHeight)
      pages.length cfg.image_format hhs_ne h1
      (detect_questions comp cfg.min_gap_height cfg.whitespace_threshold
        true cfg.min_question_height) [] [] 0
    obtain ⟨r, s, k⟩ := out0
    refine ⟨⟨⟨name, now, r.length, r⟩, s, k⟩, ?_⟩
    unfold process_single_pdf
    rw [hok]
    simp only [bind, Except.bind]
    rw [hpr]

theorem eval_detect_cfg1 :
    detect_questions [[0], [0]] 1 250 true 1 = [([[0], [0]], ⟨0, 0, 1, 2⟩)] := by
  simp only [detect_questions, find_question_boundaries, eval_gaps_dark]
  rfl

theorem eval_run_cfg1 (t name : String) :
    process_single_pdf [[[0, 0]]] ⟨5 / 100, 1, 250, 1, "png"⟩ ocr_12 t name =
      .ok ⟨⟨name, t, 1,
          [⟨"q001", some 12, none, "images/q001.png", [1], .left,
            ⟨0, 0, 1, 2⟩⟩]⟩,
        ["images/q001.png"], 0⟩ := by
  unfold process_single_pdf
  rw [show Config.gap_ratio ⟨5 / 100, 1, 250, 1, "png"⟩ = 5 / 100 from rfl,
    eval_composite]
  simp only [bind, Except.bind]
  rw [eval_detect_cfg1]
  rfl

/-- C9 witness: a pipeline run whose single detected region reads "12"
yields exactly one record, and the invariant applied to it produces its
in-range number. -/
theorem c9_numbered_output_witness :
    ∃ n, (⟨"q001", some 12, none, "images/q001.png", [1], Column.left,
      ⟨0, 0, 1, 2⟩⟩ : QuestionRecord).number = some n ∧ 1 ≤ n ∧ n ≤ 999 := by
  have h := (c9_numbered_output.1 [[[0, 0]]] ⟨5 / 100, 1, 250, 1, "png"⟩
    ocr_12 "T" "a.pdf" _ (eval_run_cfg1 "T" "a.pdf")).1
  exact h _ (by simp)

end PdfToData
